import Mathlib

/-!
# Verification of the qdtsne specification against the source

Shallow embedding of the qdtsne C++ library (Barnes-Hut t-SNE):
* the grid interpolator's cell-index hashing (`include/qdtsne/interpolate.hpp`),
* the `Tsne` parameter defaults and setters (`include/qdtsne/tsne.hpp`),
* the per-row Gaussian perplexity calibration (`compute_gaussian_perplexity`),
* the two revisions of the neighbor-matrix symmetrization (`Tsne::symmetrize_matrix`
  in `tsne.hpp` and the standalone `symmetrize_matrix` in `symmetrize.hpp`),
* the gradient-engine iteration (gains, momentum, re-centering) and the
  exaggeration/momentum schedule of `Tsne::run`,
* the Barnes-Hut repulsive force traversal (modelled from the specification,
  since the SPTree implementation file is not part of the sources at hand;
  its tests and callers are) and the naive reference from the test suite.

Machine doubles are modelled as rationals (exact real arithmetic); the
"within floating tolerance" clauses of the specification are settled as exact
equalities over ℚ.
-/

namespace Qdtsne

namespace interpolate

/-! ## Grid interpolator: cell-index hashing (`interpolate.hpp`)

The C++ functions

```
template<int ndim>
size_t hash(const std::array<size_t, ndim>& index, int intervals) {
    size_t counter = 0;
    for (int d = 0; d < ndim; ++d) {
        counter *= intervals + 1;
        counter += index[d];
    }
    return counter;
}

template<int ndim>
std::array<size_t, ndim> unhash(size_t hash, int intervals) {
    std::array<size_t, ndim> current;
    for (int d = 0; d < ndim; ++d) {
        current[ndim - d - 1] = (hash % (intervals + 1));
        hash /= intervals + 1;
    }
    return current;
}
```

are embedded over `Nat`, with the `std::array<size_t, ndim>` represented by a
`List Nat` of length `ndim`.  The `d`-th extracted digit is written to slot
`ndim - d - 1`, i.e. the digits are produced least-significant first and fill
the array from the back; `interpolateUnhash` below builds the same list by
appending each extracted digit after the (recursively filled) earlier slots.
-/
/-- `hash<ndim>(index, intervals)`: base-`intervals+1` big-endian accumulation
over the components of `index`. -/
def hash (index : List Nat) (intervals : Nat) : Nat :=
  index.foldl (fun counter x => counter * (intervals + 1) + x) 0

/-- `unhash<ndim>(hash, intervals)`: extract `ndim` digits of `h` in base
`intervals+1`, least-significant digit written to the last slot. -/
def unhash (ndim : Nat) (h : Nat) (intervals : Nat) : List Nat :=
  match ndim with
  | 0 => []
  | d + 1 => unhash d (h / (intervals + 1)) intervals ++ [h % (intervals + 1)]

end interpolate

namespace Defaults

/-! ## `Tsne` parameters: defaults and setters (`tsne.hpp`, lines 84-260)

`struct Defaults` holds the compile-time default values; the private members
of `Tsne` are initialized from them, and each setter overwrites one member.
Every setter has a C++ default argument; calling a setter with no argument
passes that default argument.  The default-argument expressions are embedded
as explicit `..._default` constants, and "invoked with no argument" is
embedded as invocation at the corresponding constant. -/
def perplexity : ℚ := 30

def theta : ℚ := 1/2

def max_iter : Int := 1000

def stop_lying_iter : Int := 250

def mom_switch_iter : Int := 250

def start_momentum : ℚ := 1/2

def final_momentum : ℚ := 4/5

def eta : ℚ := 200

def exaggeration_factor : ℚ := 12

def max_depth : Int := 7

end Defaults

/-- The private parameter members of `Tsne`, initialized from `Defaults`. -/
structure TsneParams where
  perplexity : ℚ := Defaults.perplexity
  theta : ℚ := Defaults.theta
  max_iter : Int := Defaults.max_iter
  stop_lying_iter : Int := Defaults.stop_lying_iter
  mom_switch_iter : Int := Defaults.mom_switch_iter
  start_momentum : ℚ := Defaults.start_momentum
  final_momentum : ℚ := Defaults.final_momentum
  eta : ℚ := Defaults.eta
  exaggeration_factor : ℚ := Defaults.exaggeration_factor
  max_depth : Int := Defaults.max_depth

def set_max_iter (t : TsneParams) (m : Int) : TsneParams := { t with max_iter := m }

/-- Default argument of `set_max_iter`: `int m = Defaults::max_iter`. -/
def set_max_iter_default : Int := Defaults.max_iter

def set_max_depth (t : TsneParams) (m : Int) : TsneParams := { t with max_depth := m }

/-- Default argument of `set_max_depth`: `int m = Defaults::max_depth`. -/
def set_max_depth_default : Int := Defaults.max_depth

def set_mom_switch_iter (t : TsneParams) (m : Int) : TsneParams :=
  { t with mom_switch_iter := m }

/-- Default argument of `set_mom_switch_iter`: `int m = Defaults::mom_switch_iter`. -/
def set_mom_switch_iter_default : Int := Defaults.mom_switch_iter

def set_start_momentum (t : TsneParams) (s : ℚ) : TsneParams :=
  { t with start_momentum := s }

/-- Default argument of `set_start_momentum`: `double s = Defaults::start_momentum`. -/
def set_start_momentum_default : ℚ := Defaults.start_momentum

def set_final_momentum (t : TsneParams) (f : ℚ) : TsneParams :=
  { t with final_momentum := f }

/-- Default argument of `set_final_momentum`: `double f = Defaults::final_momentum`. -/
def set_final_momentum_default : ℚ := Defaults.final_momentum

def set_stop_lying_iter (t : TsneParams) (s : Int) : TsneParams :=
  { t with stop_lying_iter := s }

/-- Default argument of `set_stop_lying_iter`: `int s = Defaults::stop_lying_iter`. -/
def set_stop_lying_iter_default : Int := Defaults.stop_lying_iter

def set_eta (t : TsneParams) (e : ℚ) : TsneParams := { t with eta := e }

/-- Default argument of `set_eta`: `double e = Defaults::eta`. -/
def set_eta_default : ℚ := Defaults.eta

def set_exaggeration_factor (t : TsneParams) (e : ℚ) : TsneParams :=
  { t with exaggeration_factor := e }

/-- Default argument of `set_exaggeration_factor` as written in the source,
`tsne.hpp` line 235: `double e = Defaults::eta` (not
`Defaults::exaggeration_factor`). -/
def set_exaggeration_factor_default : ℚ := Defaults.eta

def set_perplexity (t : TsneParams) (p : ℚ) : TsneParams := { t with perplexity := p }

/-- Default argument of `set_perplexity`: `double p = Defaults::perplexity`. -/
def set_perplexity_default : ℚ := Defaults.perplexity

def set_theta (t : TsneParams) (th : ℚ) : TsneParams := { t with theta := th }

/-- Default argument of `set_theta`: `double t = Defaults::theta`. -/
def set_theta_default : ℚ := Defaults.theta

/-! ## Gradient engine: `Tsne::iterate` (`tsne.hpp`, lines 560-604)

The flat `N*ndim` buffers (`gains`, `dY`, `uY`, and the caller's column-major
`Y`) are embedded as functions `Nat → ℚ`; coordinate `d` of observation `n`
lives at flat index `n*ndim + d`.  The gradient `dY` is the output of
`compute_gradient` and is taken as an arbitrary input here, so the theorems
below hold for every input state. -/
/-- `Tsne::sign`: `(x == .0 ? .0 : (x < .0 ? -1.0 : 1.0))`. -/
def sign (x : ℚ) : ℚ :=
  if x = 0 then 0 else if x < 0 then -1 else 1

/-- One slot of the gains loop:
`g = std::max(0.01, sign(dY[i]) != sign(uY[i]) ? (g + 0.2) : (g * 0.8))`. -/
def updateGain (g d u : ℚ) : ℚ :=
  max (1/100) (if sign d ≠ sign u then g + 1/5 else g * (4/5))

/-- The gains loop over `i = 0 .. len-1` (`len = gains.size() = N*ndim`);
slots at or beyond `len` are untouched. -/
def updateGains (len : Nat) (gains dY uY : Nat → ℚ) : Nat → ℚ :=
  fun i => if i < len then updateGain (gains i) (dY i) (uY i) else gains i

/-- The velocity update loop:
`uY[i] = momentum * uY[i] - eta * gains[i] * dY[i]` for `i < len`. -/
def updateVelocity (len : Nat) (momentum eta : ℚ) (uY gains dY : Nat → ℚ) :
    Nat → ℚ :=
  fun i => if i < len then momentum * uY i - eta * gains i * dY i else uY i

/-- The position update: `Y[i] += uY[i]` for `i < len`. -/
def applyVelocity (len : Nat) (Y uY : Nat → ℚ) : Nat → ℚ :=
  fun i => if i < len then Y i + uY i else Y i

/-- The per-dimension sum of column `d`: `Y[0*ndim+d] + ... + Y[(N-1)*ndim+d]`. -/
def colSum (N ndim d : Nat) (Y : Nat → ℚ) : ℚ :=
  ((List.range N).map (fun i => Y (i * ndim + d))).sum

/-- The zero-mean pass of `iterate`: for each dimension `d`, subtract
`colSum/N` from every `Y[i*ndim+d]`.  The source updates the dimensions one
after another, but the columns occupy disjoint flat slots, so the sequential
per-dimension passes equal this single pointwise update. -/
def recenter (N ndim : Nat) (Y : Nat → ℚ) : Nat → ℚ :=
  fun idx =>
    if idx < N * ndim then Y idx - colSum N ndim (idx % ndim) Y / N else Y idx

/-- The tail of `Tsne::iterate` after `compute_gradient`: gains update,
momentum/velocity update, position update, re-centering.  Returns the new
`(Y, uY, gains)`. -/
def iterateAfterGradient (N ndim : Nat) (momentum eta : ℚ)
    (Y dY uY gains : Nat → ℚ) : (Nat → ℚ) × (Nat → ℚ) × (Nat → ℚ) :=
  let gains' := updateGains (N * ndim) gains dY uY
  let uY' := updateVelocity (N * ndim) momentum eta uY gains' dY
  let Yv := applyVelocity (N * ndim) Y uY'
  (recenter N ndim Yv, uY', gains')

/-! ## `Tsne::run` schedule (`tsne.hpp`, lines 538-557)

```
int& iter = status.iter;
double multiplier = (iter < stop_lying_iter ? exaggeration_factor : 1);
double momentum = (iter < mom_switch_iter ? start_momentum : final_momentum);
for(; iter < max_iter; ++iter) {
    if (iter == stop_lying_iter) { multiplier = 1; }
    if (iter == mom_switch_iter) { momentum = final_momentum; }
    iterate(status, Y, multiplier, momentum);
}
```

`iterate` neither reads nor writes `iter`, `multiplier` or `momentum`, so the
schedule is embedded as the trace of `(iter, multiplier, momentum)` triples
passed to `iterate`, one per executed loop iteration.  Iteration counters are
C `int`s, embedded as `Int`; the loop runs `max_iter - iter` more times, which
bounds the structural fuel. -/
/-- The `run` loop body: emits the `(iter, multiplier, momentum)` triple for
each executed iteration, applying the two `==`-triggered schedule switches
first, exactly as in the source. -/
def runLoop (stop ms maxI : Int) (fm : ℚ) :
    Nat → Int → ℚ → ℚ → List (Int × ℚ × ℚ)
  | 0, _, _, _ => []
  | fuel + 1, iter, mult, mom =>
    if iter < maxI then
      let mult' := if iter = stop then 1 else mult
      let mom' := if iter = ms then fm else mom
      (iter, mult', mom') :: runLoop stop ms maxI fm fuel (iter + 1) mult' mom'
    else []

/-- `Tsne::run` starting from a `Status` whose counter is `iter0`: the
entry ternaries pick the starting multiplier and momentum, then the loop
runs while `iter < max_iter`. -/
def runSchedule (stop ms maxI : Int) (exagg sm fm : ℚ) (iter0 : Int) :
    List (Int × ℚ × ℚ) :=
  let mult := if iter0 < stop then exagg else 1
  let mom := if iter0 < ms then sm else fm
  runLoop stop ms maxI fm (maxI - iter0).toNat iter0 mult mom

/-! ## Gaussian perplexity calibration (`tsne.hpp`, lines 339-437)

`compute_gaussian_perplexity` calibrates, per row, the precision `beta` of a
Gaussian kernel over the `K` neighbor distances by a hybrid Newton/bisection
search capped at 200 iterations, then row-normalizes by the final `sum_P`.

The transcendental `std::exp` and `std::log` are modelled as abstract function
parameters `expF` and `logF : ℚ → ℚ`; every theorem below holds for arbitrary
such functions (with `0 ≤ expF x` where positivity of the kernel matters,
which the real exponential satisfies).  `DBL_MAX`, the sentinel for an
unbounded `max_beta`, is the exact rational value of the largest double. -/
/-- The entropy tolerance `tol = 1e-5`. -/
def tol : ℚ := 1/100000

/-- `std::numeric_limits<double>::max()`, exactly: `(2^53 - 1) * 2^971`. -/
def maxValue : ℚ := (2^53 - 1) * 2^971

/-- Loop state of the per-row bandwidth search: `beta`, the bracketing
interval `[min_beta, max_beta]`, the kernel values `output`, their sum
`sum_P`, and the number of search iterations executed so far. -/
structure BetaState where
  beta : ℚ
  minBeta : ℚ
  maxBeta : ℚ
  output : List ℚ
  sumP : ℚ
  iters : Nat
  deriving DecidableEq

/-- The kernel buffer written by one pass of the search loop:
`output[0] = 1` (fixed before the loop) and
`output[m] = exp(-beta * squared_delta_dist[m])` for `m = 1 .. K-1`. -/
def mkOutput (expF : ℚ → ℚ) (sdd : Nat → ℚ) (K : Nat) (beta : ℚ) : List ℚ :=
  1 :: (List.range (K - 1)).map (fun j => expF (-beta * sdd (j + 1)))

/-- The `beta`-update of one non-terminating search iteration, returning the
new `(beta, min_beta, max_beta)`: a Newton step to `altBeta` is accepted when
the denominator `d1` is nonzero and `altBeta` lands strictly inside
`(min_beta, max_beta)`; otherwise bisect, doubling upward while `max_beta`
still holds the `DBL_MAX` sentinel. -/
def betaSearchUpdate (beta minB maxB diff d1 altBeta : ℚ) : ℚ × ℚ × ℚ :=
  if d1 ≠ 0 ∧ minB < altBeta ∧ altBeta < maxB then (altBeta, minB, maxB)
  else if 0 < diff then
    ((if maxB = maxValue then beta * 2 else (beta + maxB) / 2), beta, maxB)
  else ((beta + minB) / 2, minB, beta)

/-- One iteration of the bandwidth-search loop: recompute the kernel, test
the entropy against the target, and either stop (`.inl`, tolerance met) or
update `beta` via `betaSearchUpdate` (`.inr`). -/
def gaussIterate (expF logF : ℚ → ℚ) (sdd qdd : Nat → ℚ) (K : Nat)
    (logPerp : ℚ) (st : BetaState) : BetaState ⊕ BetaState :=
  let beta := st.beta
  let output := mkOutput expF sdd K beta
  let sumP := output.sum
  let prod := ((List.range (K - 1)).map
    (fun j => sdd (j + 1) * expF (-beta * sdd (j + 1)))).sum
  let entropy := beta * (prod / sumP) + logF sumP
  let diff := entropy - logPerp
  let st1 : BetaState :=
    { st with output := output, sumP := sumP, iters := st.iters + 1 }
  if |diff| < tol then .inl st1
  else
    let prod2 := ((List.range (K - 1)).map
      (fun j => qdd (j + 1) * expF (-beta * sdd (j + 1)))).sum
    let d1 := -beta / sumP * (prod2 - prod * prod / sumP)
    let altBeta := beta - diff / d1
    let upd := betaSearchUpdate beta st.minBeta st.maxBeta diff d1 altBeta
    .inr { st1 with beta := upd.1, minBeta := upd.2.1, maxBeta := upd.2.2 }

/-- The `for (int iter = 0; iter < 200; ++iter)` loop, with the remaining
iteration count as structural fuel. -/
def gaussLoop (expF logF : ℚ → ℚ) (sdd qdd : Nat → ℚ) (K : Nat)
    (logPerp : ℚ) : Nat → BetaState → BetaState
  | 0, st => st
  | fuel + 1, st =>
    match gaussIterate expF logF sdd qdd K logPerp st with
    | .inl done => done
    | .inr st' => gaussLoop expF logF sdd qdd K logPerp fuel st'

/-- One row of `compute_gaussian_perplexity`: shift the squared distances by
the first one, run the capped bandwidth search from `beta = 1` with bracket
`[0, DBL_MAX]`, and divide the final kernel buffer by the final `sum_P`.
Returns the normalized row together with the number of search iterations
executed. -/
def gaussianRow (expF logF : ℚ → ℚ) (K : Nat) (dist : Nat → ℚ)
    (logPerp : ℚ) : List ℚ × Nat :=
  let sdd : Nat → ℚ := fun m => dist m * dist m - dist 0 * dist 0
  let qdd : Nat → ℚ := fun m => sdd m * sdd m
  let final := gaussLoop expF logF sdd qdd K logPerp 200
    ⟨1, 0, maxValue, [1], 0, 0⟩
  ((final.output.map (fun o => o / final.sumP)), final.iters)

/-- `compute_gaussian_perplexity` over all `N` rows, with the target entropy
`log(K/3)` taken from the neighbor count. -/
def compute_gaussian_perplexity (expF logF : ℚ → ℚ)
    (nnDist : List (Nat → ℚ)) (K : Nat) : List (List ℚ) :=
  nnDist.map (fun dist => (gaussianRow expF logF K dist (logF ((K : ℚ) / 3))).1)

/-- The invariant carried by the search loop from the first iteration on:
the kernel buffer is the one written for some `beta`, and `sum_P` is its
(full) sum — `accumulate(output.begin() + 1, output.end(), 1.0)` equals the
sum over all of `output` because `output[0] = 1`. -/
def KernelInv (expF : ℚ → ℚ) (sdd : Nat → ℚ) (K : Nat) (st : BetaState) : Prop :=
  ∃ b, st.output = mkOutput expF sdd K b ∧ st.sumP = st.output.sum

/-! ## In-class symmetrization: `Tsne::symmetrize_matrix` (`tsne.hpp`, 440-499)

The inputs are the raw neighbor table `nn_index` — embedded as
`J : Nat → Nat → Nat` with `J n k` the `k`-th of the `K` neighbors of row
`n < N` — and the calibrated probabilities, embedded as
`P0 : Nat → Nat → ℚ`.  `status.neighbors` row `n` starts as a copy of
`nn_index[n]` and only ever grows by appends, and `probabilities[n]` likewise
holds `K` original slots plus appended ones; the state is embedded as the
original `K`-slot block (a function, for the in-place updates) plus the
appended tails. -/
/-- The inner `for (k2...)` scan of `nn_index[r]` for `target`, returning the
position of the first hit. -/
def findK (J : Nat → Nat → Nat) (K r target : Nat) : Option Nat :=
  (List.range K).find? (fun k => J r k == target)

/-- `target` occurs among the `K` neighbors of row `r`. -/
def hasNeighbor (J : Nat → Nat → Nat) (K r target : Nat) : Bool :=
  (findK J K r target).isSome

/-- Mutable state of the pairing loop: the original `K`-slot probability
block, and the appended `(index, probability)` tails per row. -/
structure SymState where
  probs : Nat → Nat → ℚ
  extraIdx : Nat → List Nat
  extraVal : Nat → List ℚ

/-- Processing of one `(n, k1)` pair of the double loop: look up the current
point `n` in its neighbor's row; on a hit with `n < curneighbor`, write the
sum of the two probabilities into both slots; on a hit with `n >
curneighbor`, skip (already handled at the earlier outer row); on a miss,
append `(n, probabilities[n][k1])` to the neighbor's row. -/
def pairStep (J : Nat → Nat → Nat) (K : Nat) (st : SymState) (n k1 : Nat) :
    SymState :=
  let j := J n k1
  match findK J K j n with
  | some k2 =>
    if n < j then
      let s := st.probs n k1 + st.probs j k2
      { st with probs := fun a b =>
          if a = n ∧ b = k1 then s
          else if a = j ∧ b = k2 then s
          else st.probs a b }
    else st
  | none =>
    { st with
      extraIdx := fun r => if r = j then st.extraIdx r ++ [n] else st.extraIdx r,
      extraVal := fun r =>
        if r = j then st.extraVal r ++ [st.probs n k1] else st.extraVal r }

/-- The double loop over `n < N`, `k1 < K`. -/
def symPairPhase (J : Nat → Nat → Nat) (P0 : Nat → Nat → ℚ) (N K : Nat) :
    SymState :=
  (List.range N).foldl
    (fun st n => (List.range K).foldl (fun st k1 => pairStep J K st n k1) st)
    ⟨P0, fun _ => [], fun _ => []⟩

/-- The full probability row `i` after the pairing loop: the `K` original
slots followed by the appended tail. -/
def symRowRaw (J : Nat → Nat → Nat) (P0 : Nat → Nat → ℚ) (N K i : Nat) :
    List ℚ :=
  (List.range K).map ((symPairPhase J P0 N K).probs i) ++
    (symPairPhase J P0 N K).extraVal i

/-- `total`: every entry is halved (`y /= 2`) and the halved values are
accumulated across all rows. -/
def symTotal (J : Nat → Nat → Nat) (P0 : Nat → Nat → ℚ) (N K : Nat) : ℚ :=
  ((List.range N).map
    (fun i => ((symRowRaw J P0 N K i).map (fun y => y / 2)).sum)).sum

/-- Probability row `i` after halving and dividing by `total`. -/
def symRowFinal (J : Nat → Nat → Nat) (P0 : Nat → Nat → ℚ) (N K i : Nat) :
    List ℚ :=
  ((symRowRaw J P0 N K i).map (fun y => y / 2)).map
    (fun y => y / symTotal J P0 N K)

/-- Neighbor-index row `i` (`col_P[i]`): the copy of `nn_index[i]` followed
by the appended indices. -/
def symRowIdx (J : Nat → Nat → Nat) (P0 : Nat → Nat → ℚ) (N K i : Nat) :
    List Nat :=
  (List.range K).map (J i) ++ (symPairPhase J P0 N K).extraIdx i

/-- `Tsne::symmetrize_matrix`: run the pairing loop, halve every entry while
accumulating the grand total, then divide every entry by that total.  The
result is the per-row association list of `(neighbor index, probability)`
pairs (`col_P[i]` zipped with `probabilities[i]`). -/
def symmetrize_matrix_tsne (J : Nat → Nat → Nat) (P0 : Nat → Nat → ℚ)
    (N K : Nat) : List (List (Nat × ℚ)) :=
  (List.range N).map
    (fun i => (symRowIdx J P0 N K i).zip (symRowFinal J P0 N K i))

/-- The probability attached to `j` in row `i` of the raw input — `0` when
`j` is not among the `K` neighbors of `i`. -/
def phat (J : Nat → Nat → Nat) (P0 : Nat → Nat → ℚ) (K i j : Nat) : ℚ :=
  match findK J K i j with
  | some k => P0 i k
  | none => 0

/-- The symmetrized (unnormalized) weight of the unordered pair `{i, j}`. -/
def symVal (J : Nat → Nat → Nat) (P0 : Nat → Nat → ℚ) (K i j : Nat) : ℚ :=
  phat J P0 K i j + phat J P0 K j i

/-- Validity of the raw neighbor input for `N` observations with `K`
neighbors each: in-range targets, no self-edges, no duplicates within a row
(`nn_index` rows list the `K` *distinct* nearest neighbors). -/
structure ValidNeighbors (J : Nat → Nat → Nat) (N K : Nat) : Prop where
  target_lt : ∀ i < N, ∀ k < K, J i k < N
  no_self : ∀ i < N, ∀ k < K, J i k ≠ i
  distinct : ∀ i < N, ∀ k1 < K, ∀ k2 < K, J i k1 = J i k2 → k1 = k2

/-- The probability that the pairing loop adds into slot `(i, k)` when the
pair is mutual: the neighbor's probability for `i`, looked up at the position
of `i` in row `J i k`. -/
def addTerm (J : Nat → Nat → Nat) (P0 : Nat → Nat → ℚ) (K i k : Nat) : ℚ :=
  match findK J K (J i k) i with
  | some k2 => P0 (J i k) k2
  | none => 0

/-- The `(outer row, inner position)` of the double loop at which slot
`(i, k)` receives its mutual-pair write: at the smaller endpoint's row, at
the position of the larger endpoint within it. -/
def trigger (J : Nat → Nat → Nat) (K i k : Nat) : Nat × Nat :=
  if i < J i k then (i, k) else (J i k, (findK J K (J i k) i).getD 0)

/-- Slot `(i, k)` has already received its mutual-pair write once the double
loop has fully processed outer rows `< n` and inner positions `< t` of outer
row `n`. -/
def summedAt (J : Nat → Nat → Nat) (K i k n t : Nat) : Prop :=
  (findK J K (J i k) i).isSome ∧
    ((trigger J K i k).1 < n ∨
      ((trigger J K i k).1 = n ∧ (trigger J K i k).2 < t))

instance summedAtDecidable (J : Nat → Nat → Nat) (K i k n t : Nat) :
    Decidable (summedAt J K i k n t) := by
  unfold summedAt
  infer_instance

/-- Row `r` receives an appended entry from outer row `m` exactly when `r`
is a neighbor of `m` but `m` is not a neighbor of `r`. -/
def appendCond (J : Nat → Nat → Nat) (K m r : Nat) : Bool :=
  hasNeighbor J K m r && !(hasNeighbor J K r m)

/-- Row `r` has already received its append from the partially processed
outer row `n` (inner positions `< t`). -/
def withinCond (J : Nat → Nat → Nat) (K r n t : Nat) : Bool :=
  ((List.range t).any fun k1 => J n k1 == r) && !(hasNeighbor J K r n)

/-- The appended tail of row `r` after outer rows `< n` and inner positions
`< t` of outer row `n`. -/
def appendedList (J : Nat → Nat → Nat) (K r n t : Nat) : List Nat :=
  (List.range n).filter (fun m => appendCond J K m r) ++
    (if withinCond J K r n t then [n] else [])

/-- Loop invariant for the original probability slots. -/
def ProbsInv (J : Nat → Nat → Nat) (P0 : Nat → Nat → ℚ) (N K : Nat)
    (st : SymState) (n t : Nat) : Prop :=
  ∀ i k, st.probs i k = P0 i k +
    (if i < N ∧ k < K ∧ summedAt J K i k n t then addTerm J P0 K i k else 0)

/-- Loop invariant for the appended tails. -/
def ExtraInv (J : Nat → Nat → Nat) (P0 : Nat → Nat → ℚ) (K : Nat)
    (st : SymState) (n t : Nat) : Prop :=
  ∀ r, st.extraIdx r = appendedList J K r n t ∧
    st.extraVal r
      = (appendedList J K r n t).map (fun m => P0 m ((findK J K m r).getD 0))

/-- Concrete neighbor table for witnesses: two observations, one neighbor
each, mutually adjacent. -/
def Jpair : Nat → Nat → Nat := fun i _ => if i = 0 then 1 else 0

/-- Concrete raw probabilities for witnesses. -/
def Ppair : Nat → Nat → ℚ := fun _ _ => 1

/-! ## `Tsne::initialize` (`tsne.hpp`, lines 326-336 and 721-746)

The direct path checks only that the index and distance vectors have the same
length, then runs the Gaussian calibration and the symmetrization — both
total.  The searcher path computes `K = ceil(perplexity * 3)` as a C `int`,
compares it against the `size_t` observation count (the `int` is converted to
`size_t`, i.e. reduced modulo 2⁶⁴, by the usual arithmetic conversion in
`K >= N`), fills the flat zero-initialized neighbor arrays from the searcher
output, and calls the direct path with equal-length lists. -/
/-- `true` exactly when the call returned normally rather than throwing. -/
def exOk {ε α : Type} : Except ε α → Bool
  | .ok _ => true
  | .error _ => false

/-- The parts of `Status` that `initialize` fills: the symmetrized rows and
the iteration counter (0). -/
structure StatusModel where
  rows : List (List (Nat × ℚ))
  iter : Int

/-- `initialize(nn_index, nn_dist, K)`. -/
def initialize_direct (expF logF : ℚ → ℚ) (nnIndex : List (List Nat))
    (nnDist : List (Nat → ℚ)) (K : Nat) : Except String StatusModel :=
  if nnIndex.length ≠ nnDist.length then
    .error "indices and distances should be of the same length"
  else
    let N := nnIndex.length
    let P0rows := compute_gaussian_perplexity expF logF nnDist K
    let J : Nat → Nat → Nat := fun i k => (nnIndex.getD i []).getD k 0
    let P0 : Nat → Nat → ℚ := fun i k => (P0rows.getD i []).getD k 0
    .ok ⟨symmetrize_matrix_tsne J P0 N K, 0⟩

/-- The C++ conversion of an `int` to `size_t`: reduction modulo 2⁶⁴. -/
def size_t_of_int (k : Int) : Nat := (k % (2 ^ 64 : Int)).toNat

/-- `initialize(searcher)`: `K = ceil(perplexity * 3)`, reject when
`K >= N` (as `size_t`s), otherwise gather each observation's neighbors into
the zero-initialized flat arrays and defer to the direct path. -/
def initialize_searcher (expF logF : ℚ → ℚ) (perplexity : ℚ) (nobs : Nat)
    (search : Nat → Nat → List (Nat × ℚ)) : Except String StatusModel :=
  let K : Int := ⌈perplexity * 3⌉
  if size_t_of_int K ≥ nobs then
    .error "number of observations should be greater than 3 * perplexity"
  else
    let Kn := K.toNat
    let nnIndex := (List.range nobs).map
      (fun i => (List.range Kn).map (fun k => ((search i Kn).getD k (0, 0)).1))
    let nnDist := (List.range nobs).map
      (fun i => fun k => ((search i Kn).getD k ((0 : Nat), (0 : ℚ))).2)
    initialize_direct expF logF nnIndex nnDist Kn

/-! ## Standalone symmetrization: `symmetrize_matrix` (`symmetrize.hpp`)

The later revision of the symmetrization works in place on a
`NeighborList<Index>` — a vector of per-row vectors of
`(neighbor index, probability)` pairs.  It first sorts every row by the
`std::pair` ordering (index first) and accumulates the pre-symmetrization
total; then runs the pairing loop with a persistent per-row cursor `last`
(the monotone two-finger scan over each row's original prefix); finally
divides by twice the total and re-sorts every row. -/
/-- The `std::pair<Index, double>` ordering used by `std::sort`. -/
def pairLe (a b : Nat × ℚ) : Prop :=
  a.1 < b.1 ∨ (a.1 = b.1 ∧ a.2 ≤ b.2)

instance pairLeDecidable : DecidableRel pairLe := by
  unfold pairLe
  infer_instance

instance pairLeTotal : IsTotal (Nat × ℚ) pairLe where
  total a b := by
    unfold pairLe
    rcases Nat.lt_trichotomy a.1 b.1 with h | h | h
    · exact Or.inl (Or.inl h)
    · rcases le_total a.2 b.2 with h2 | h2
      · exact Or.inl (Or.inr ⟨h, h2⟩)
      · exact Or.inr (Or.inr ⟨h.symm, h2⟩)
    · exact Or.inr (Or.inl h)

instance pairLeTrans : IsTrans (Nat × ℚ) pairLe where
  trans a b c hab hbc := by
    unfold pairLe at *
    rcases hab with h1 | ⟨h1, h1'⟩ <;> rcases hbc with h2 | ⟨h2, h2'⟩
    · exact Or.inl (Nat.lt_trans h1 h2)
    · exact Or.inl (h2 ▸ h1)
    · exact Or.inl (h1 ▸ h2)
    · exact Or.inr ⟨h1.trans h2, h1'.trans h2'⟩

/-- `std::sort(current.begin(), current.end())` on a row of pairs. -/
def sortPairs (l : List (Nat × ℚ)) : List (Nat × ℚ) :=
  l.insertionSort pairLe

/-- The `while (curlast < limits && target[curlast].first < desired)` cursor
advance, with the remaining distance to `limits` as structural fuel. -/
def advanceLast (target : List (Nat × ℚ)) (desired limits : Nat) :
    Nat → Nat → Nat
  | 0, c => c
  | fuel + 1, c =>
    if c < limits ∧ (target.getD c (0, (0 : ℚ))).1 < desired then
      advanceLast target desired limits fuel (c + 1)
    else c

/-- Mutable state of the standalone pairing loop: the neighbor list and the
per-row cursors. -/
structure SymHState where
  x : List (List (Nat × ℚ))
  last : Nat → Nat

/-- One `y = current[idx]` step of the standalone pairing loop for outer row
`first`. -/
def hstep (original : Nat → Nat) (st : SymHState) (first idx : Nat) :
    SymHState :=
  let current := st.x.getD first []
  let y := current.getD idx (0, (0 : ℚ))
  let target := st.x.getD y.1 []
  let limits := original y.1
  let cl := advanceLast target first limits limits (st.last y.1)
  let last' : Nat → Nat := fun r => if r = y.1 then cl else st.last r
  if cl < limits ∧ (target.getD cl (0, (0 : ℚ))).1 = first then
    if first < y.1 then
      let combined := y.2 + (target.getD cl (0, (0 : ℚ))).2
      let x1 := st.x.set first (current.set idx (y.1, combined))
      let x2 := x1.set y.1 ((x1.getD y.1 []).set cl
        (((x1.getD y.1 []).getD cl (0, (0 : ℚ))).1, combined))
      ⟨x2, last'⟩
    else ⟨st.x, last'⟩
  else ⟨st.x.set y.1 (target ++ [(first, y.2)]), last'⟩

/-- `symmetrize_matrix(NeighborList&)` from `symmetrize.hpp`. -/
def symmetrize_matrix_nl (x0 : List (List (Nat × ℚ))) :
    List (List (Nat × ℚ)) :=
  let xs := x0.map sortPairs
  let original : Nat → Nat := fun i => (xs.getD i []).length
  let total : ℚ := (xs.map (fun row => (row.map Prod.snd).sum)).sum
  let st := (List.range xs.length).foldl
    (fun st first =>
      (List.range (st.x.getD first []).length).foldl
        (fun st idx => hstep original st first idx) st)
    ⟨xs, fun _ => 0⟩
  let total2 := total * 2
  st.x.map (fun row => sortPairs (row.map (fun y => (y.1, y.2 / total2))))

/-! ## Barnes-Hut repulsive forces (SPTree)

Modelled from the spec: the SPTree implementation file (`sptree.hpp` /
`SPTree.hpp`) is not among the sources at hand — only its test suite
(`src/tests/CMakeLists.txt`, which carries the SPTree test source) and its
callers in `tsne.hpp` are.  The traversal below follows §4.2 of the
specification: visit recursively from the root, skipping the root's own
summary; at a visited node with summary `(center_of_mass, halfwidth, number)`
let `δ = p − center_of_mass`, `r² = ‖δ‖²`, `w = max_d 2·halfwidth[d]`; if the
node is a leaf or `w/√r² < θ`, treat it as a point mass: add
`q·number` to `Q_sum` and `q²·number·δ` to `neg_f` with `q = 1/(1+r²)`,
else descend into the children.  At the leaf holding the query point the
self-excluded mass `number − 1` is used.  The acceptance test `w/√r² < θ`
is written square-free as `0 < θ ∧ w² < θ²·r²`, which is equivalent for
`w ≥ 0 < r²` and keeps the model executable over ℚ.

Leaves hold the indices of their points; a leaf's `center_of_mass` is the
mean of its contained points (§4.2 construction, step 3), computed here from
the embedding `Y` directly.  The naive reference `reference_non_edge_forces`
is translated from the test source. -/
mutual
inductive SPTreeM : Type where
  | leaf : List Nat → SPTreeM
  | node : List ℚ → List ℚ → Nat → SPForest → SPTreeM
inductive SPForest : Type where
  | nil : SPForest
  | cons : SPTreeM → SPForest → SPForest
end

/-- Center of mass of a leaf: the per-dimension mean of its points. -/
def leafCom (Y : Nat → Nat → ℚ) (idxs : List Nat) (d : Nat) : ℚ :=
  ((idxs.map (fun j => Y j d)).sum) / idxs.length

/-- `(Q_sum, neg_f)` accumulator addition. -/
def fAdd (a b : ℚ × (Nat → ℚ)) : ℚ × (Nat → ℚ) :=
  (a.1 + b.1, fun d => a.2 d + b.2 d)

mutual
/-- Barnes-Hut visit of one (non-root) node for query point `n`. -/
def visitNode (dim : Nat) (Y : Nat → Nat → ℚ) (theta : ℚ) (n : Nat) :
    SPTreeM → ℚ × (Nat → ℚ)
  | .leaf idxs =>
    let com := leafCom Y idxs
    let mass : ℚ := if n ∈ idxs then (idxs.length : ℚ) - 1 else idxs.length
    let delta : Nat → ℚ := fun d => Y n d - com d
    let r2 := ((List.range dim).map (fun d => (delta d) ^ 2)).sum
    let q := 1 / (1 + r2)
    (q * mass, fun d => q * q * mass * delta d)
  | .node com hw number children =>
    let delta : Nat → ℚ := fun d => Y n d - com.getD d 0
    let r2 := ((List.range dim).map (fun d => (delta d) ^ 2)).sum
    let w := ((List.range dim).map (fun d => 2 * hw.getD d 0)).foldl max 0
    if 0 < theta ∧ w ^ 2 < theta ^ 2 * r2 then
      let q := 1 / (1 + r2)
      (q * number, fun d => q * q * number * delta d)
    else visitForest dim Y theta n children

/-- Barnes-Hut visit of a child list. -/
def visitForest (dim : Nat) (Y : Nat → Nat → ℚ) (theta : ℚ) (n : Nat) :
    SPForest → ℚ × (Nat → ℚ)
  | .nil => (0, fun _ => 0)
  | .cons t f =>
    fAdd (visitNode dim Y theta n t) (visitForest dim Y theta n f)
end

/-- `SPTree::compute_non_edge_forces`: traverse from the root, skipping the
root node's own (meaningless) summary. -/
def compute_non_edge_forces_model (dim : Nat) (Y : Nat → Nat → ℚ) (theta : ℚ)
    (n : Nat) : SPTreeM → ℚ × (Nat → ℚ)
  | .leaf idxs => visitNode dim Y theta n (.leaf idxs)
  | .node _ _ _ children => visitForest dim Y theta n children

/-- One step of the naive reference loop: skip the query point itself
(`point == data`), otherwise accumulate `s` into the sum and `s²·δ` into
`neg_f`. -/
def refStep (dim : Nat) (Y : Nat → Nat → ℚ) (n : Nat)
    (acc : ℚ × (Nat → ℚ)) (m : Nat) : ℚ × (Nat → ℚ) :=
  if m = n then acc
  else
    let delta : Nat → ℚ := fun d => Y n d - Y m d
    let sqdist := ((List.range dim).map (fun d => (delta d) ^ 2)).sum
    let s := 1 / (1 + sqdist)
    (acc.1 + s, fun d => acc.2 d + s * s * delta d)

/-- `reference_non_edge_forces` from the SPTree test suite: the naive O(N²)
pairwise accumulation, skipping the query point itself. -/
def reference_non_edge_forces (dim : Nat) (Y : Nat → Nat → ℚ) (N n : Nat) :
    ℚ × (Nat → ℚ) :=
  (List.range N).foldl (refStep dim Y n) (0, fun _ => 0)

mutual
/-- The point indices held by the leaves of a tree. -/
def treeIdxs : SPTreeM → List Nat
  | .leaf idxs => idxs
  | .node _ _ _ children => forestIdxs children

def forestIdxs : SPForest → List Nat
  | .nil => []
  | .cons t f => treeIdxs t ++ forestIdxs f
end

mutual
/-- Every leaf of the tree holds exactly one point. -/
def allSingleton : SPTreeM → Bool
  | .leaf idxs => idxs.length == 1
  | .node _ _ _ children => allSingletonF children

def allSingletonF : SPForest → Bool
  | .nil => true
  | .cons t f => allSingleton t && allSingletonF f
end

/-- The exact pairwise term of the query point `n` against point `m`. -/
def pairTerm (dim : Nat) (Y : Nat → Nat → ℚ) (n m : Nat) : ℚ × (Nat → ℚ) :=
  if m = n then (0, fun _ => 0)
  else
    let delta : Nat → ℚ := fun d => Y n d - Y m d
    let sqdist := ((List.range dim).map (fun d => (delta d) ^ 2)).sum
    let s := 1 / (1 + sqdist)
    (s, fun d => s * s * delta d)

/-- Sum of exact pairwise terms over a list of point indices. -/
def sumTerms (dim : Nat) (Y : Nat → Nat → ℚ) (n : Nat) (l : List Nat) :
    ℚ × (Nat → ℚ) :=
  l.foldr (fun m acc => fAdd (pairTerm dim Y n m) acc) (0, fun _ => 0)

end Qdtsne

namespace Qdtsne

namespace interpolate

lemma hash_append_singleton (L : List Nat) (x intervals : Nat) :
    hash (L ++ [x]) intervals = hash L intervals * (intervals + 1) + x := by
  simp [hash, List.foldl_append]

lemma unhash_hash (L : List Nat) (intervals : Nat)
    (hb : ∀ x ∈ L, x ≤ intervals) :
    unhash L.length (hash L intervals) intervals = L := by
  induction L using List.reverseRecOn with
  | nil => simp [unhash, hash]
  | append_singleton M x ih =>
    have hx : x ≤ intervals := hb x (by simp)
    have hM : ∀ y ∈ M, y ≤ intervals := fun y hy => hb y (by simp [hy])
    have hlt : x < intervals + 1 := Nat.lt_succ_of_le hx
    have hdiv : (hash M intervals * (intervals + 1) + x) / (intervals + 1)
        = hash M intervals := by
      rw [Nat.mul_comm, Nat.mul_add_div (Nat.succ_pos intervals),
        Nat.div_eq_of_lt hlt, Nat.add_zero]
    have hmod : (hash M intervals * (intervals + 1) + x) % (intervals + 1) = x := by
      rw [Nat.add_comm, Nat.add_mul_mod_self_right]
      exact Nat.mod_eq_of_lt hlt
    simp only [List.length_append, List.length_singleton, hash_append_singleton,
      unhash, hdiv, hmod, ih hM]

end interpolate

end Qdtsne

/-- **C10**: for every dimension count `ndim ≥ 1`, every interval count
`I ≥ 1`, and every index array whose components are all at most `I`,
decoding the encoding returns the original array:
`unhash<ndim>(hash<ndim>(index, I), I) = index`.  (Components are `Nat`s, so
the "hash fits in `size_t`" proviso is subsumed by exact arithmetic.) -/
theorem C10_unhash_hash_roundtrip (index : List Nat) (I : Nat)
    (hdim : 1 ≤ index.length) (hI : 1 ≤ I)
    (hb : ∀ x ∈ index, x ≤ I) :
    Qdtsne.interpolate.unhash index.length (Qdtsne.interpolate.hash index I) I
      = index := by
  exact Qdtsne.interpolate.unhash_hash index I hb

/-- Witness for `C10_unhash_hash_roundtrip` at `index = [2, 0, 3]`, `I = 3`. -/
theorem C10_unhash_hash_roundtrip_witness :
    1 ≤ ([2, 0, 3] : List Nat).length ∧ 1 ≤ 3 ∧
      Qdtsne.interpolate.unhash ([2, 0, 3] : List Nat).length
        (Qdtsne.interpolate.hash [2, 0, 3] 3) 3 = [2, 0, 3] :=
  ⟨by decide, by decide,
    C10_unhash_hash_roundtrip [2, 0, 3] 3 (by decide) (by decide) (by decide)⟩

/-- **C9** (code bug): §4.3 lists the default exaggeration factor as 12 and
`Defaults::exaggeration_factor` is indeed 12, but `set_exaggeration_factor`
invoked with no argument sets the member to its default argument
`Defaults::eta = 200`, not 12: for every parameter state `t`, the call
assigns 200, and 200 ≠ 12.  (All other setters do restore their §4.3
defaults, as `setters_restore_defaults` shows.) -/
theorem C9_set_exaggeration_factor_bug (t : Qdtsne.TsneParams) :
    (Qdtsne.set_exaggeration_factor t
        Qdtsne.set_exaggeration_factor_default).exaggeration_factor = 200 ∧
      (Qdtsne.set_exaggeration_factor t
        Qdtsne.set_exaggeration_factor_default).exaggeration_factor ≠ 12 := by
  constructor
  · rfl
  · intro h
    simp [Qdtsne.set_exaggeration_factor, Qdtsne.set_exaggeration_factor_default,
      Qdtsne.Defaults.eta] at h

/-- Every setter other than `set_exaggeration_factor`, invoked with no
argument (i.e. at its C++ default argument), restores the §4.3 default value
of its parameter. -/
theorem setters_restore_defaults (t : Qdtsne.TsneParams) :
    (Qdtsne.set_perplexity t Qdtsne.set_perplexity_default).perplexity = 30 ∧
    (Qdtsne.set_theta t Qdtsne.set_theta_default).theta = 1/2 ∧
    (Qdtsne.set_max_iter t Qdtsne.set_max_iter_default).max_iter = 1000 ∧
    (Qdtsne.set_stop_lying_iter t
      Qdtsne.set_stop_lying_iter_default).stop_lying_iter = 250 ∧
    (Qdtsne.set_mom_switch_iter t
      Qdtsne.set_mom_switch_iter_default).mom_switch_iter = 250 ∧
    (Qdtsne.set_start_momentum t
      Qdtsne.set_start_momentum_default).start_momentum = 1/2 ∧
    (Qdtsne.set_final_momentum t
      Qdtsne.set_final_momentum_default).final_momentum = 4/5 ∧
    (Qdtsne.set_eta t Qdtsne.set_eta_default).eta = 200 ∧
    (Qdtsne.set_max_depth t Qdtsne.set_max_depth_default).max_depth = 7 := by
  refine ⟨rfl, rfl, rfl, rfl, rfl, rfl, rfl, rfl, rfl⟩

namespace Qdtsne

lemma colSum_eq_finset (N ndim d : Nat) (Y : Nat → ℚ) :
    colSum N ndim d Y = ∑ i ∈ Finset.range N, Y (i * ndim + d) := by
  induction N with
  | zero => simp [colSum]
  | succ n ih =>
    simp only [colSum, List.range_succ, List.map_append, List.sum_append,
      Finset.sum_range_succ, List.map_cons, List.map_nil, List.sum_cons,
      List.sum_nil, add_zero] at *
    rw [ih]

lemma sign_ne_zero_of_ne_zero {x : ℚ} (hx : x ≠ 0) : sign x ≠ 0 := by
  unfold sign
  rw [if_neg hx]
  split <;> norm_num

end Qdtsne

/-- **C6** (counterexample to the claim as stated): with gain 1, gradient
`dY = 0` and velocity `uY = 1`, the code takes the `g + 0.2` branch (result
`1.2`), i.e. a zero gradient with a nonzero velocity *does* count as a sign
flip (`sign 0 = 0 ≠ 1 = sign 1`); the claim's reading "a zero gradient ...
never counts as a sign flip" would demand the `g * 0.8` branch (result
`0.8`). -/
theorem C6_counterexample :
    Qdtsne.updateGains 1 (fun _ => 1) (fun _ => 0) (fun _ => 1) 0 = 6/5 ∧
      Qdtsne.updateGains 1 (fun _ => 1) (fun _ => 0) (fun _ => 1) 0
        ≠ max (1/100) (1 * (4/5)) := by
  constructor
  · norm_num [Qdtsne.updateGains, Qdtsne.updateGain, Qdtsne.sign]
  · norm_num [Qdtsne.updateGains, Qdtsne.updateGain, Qdtsne.sign]

/-- **C6** (amended): in every iteration, each gain coordinate `i < len` is
updated to `gains_i + 0.2` when `sign(dY_i) ≠ sign(uY_i)` and to
`gains_i × 0.8` otherwise, then clamped to at least `0.01`, with
`sign(0) = 0`; consequently a coordinate where the gradient and the velocity
are *both* zero is not a sign flip, while a zero gradient paired with a
nonzero velocity (or vice versa) is one. -/
theorem C6_gains_update (len : Nat) (gains dY uY : Nat → ℚ) (i : Nat)
    (hi : i < len) :
    Qdtsne.updateGains len gains dY uY i
        = max (1/100)
            (if Qdtsne.sign (dY i) ≠ Qdtsne.sign (uY i)
              then gains i + 1/5 else gains i * (4/5)) ∧
      (dY i = 0 → uY i = 0 →
        Qdtsne.updateGains len gains dY uY i = max (1/100) (gains i * (4/5))) ∧
      (dY i = 0 → uY i ≠ 0 →
        Qdtsne.updateGains len gains dY uY i = max (1/100) (gains i + 1/5)) ∧
      (dY i ≠ 0 → uY i = 0 →
        Qdtsne.updateGains len gains dY uY i = max (1/100) (gains i + 1/5)) := by
  refine ⟨?_, ?_, ?_, ?_⟩
  · simp [Qdtsne.updateGains, Qdtsne.updateGain, hi]
  · intro hd hu
    simp [Qdtsne.updateGains, Qdtsne.updateGain, hi, hd, hu, Qdtsne.sign]
  · intro hd hu
    have : Qdtsne.sign (uY i) ≠ 0 := Qdtsne.sign_ne_zero_of_ne_zero hu
    simp only [Qdtsne.updateGains, if_pos hi, Qdtsne.updateGain, hd]
    rw [if_pos]
    simp only [Qdtsne.sign, if_pos rfl]
    exact fun h => this h.symm
  · intro hd hu
    have : Qdtsne.sign (dY i) ≠ 0 := Qdtsne.sign_ne_zero_of_ne_zero hd
    simp only [Qdtsne.updateGains, if_pos hi, Qdtsne.updateGain, hu]
    rw [if_pos]
    simp only [Qdtsne.sign, if_pos rfl]
    exact this

/-- Witness for `C6_gains_update` at `len = 1`, `gains = 1`, `dY = 0`,
`uY = 0`, `i = 0`. -/
theorem C6_gains_update_witness :
    (0 : Nat) < 1 ∧
      Qdtsne.updateGains 1 (fun _ => 1) (fun _ => 0) (fun _ => 0) 0
        = max (1/100) ((1 : ℚ) * (4/5)) :=
  ⟨Nat.zero_lt_one,
    (C6_gains_update 1 (fun _ => 1) (fun _ => 0) (fun _ => 0) 0
      Nat.zero_lt_one).2.1 rfl rfl⟩

/-- **C7**: at the end of every iteration of the gradient engine, for each
dimension `d < ndim` the sum (hence the mean) over all `N` observations of
the embedding coordinate `Y[n*ndim + d]` is exactly zero, for every input
state (arbitrary `Y`, `dY`, `uY`, `gains`, `momentum`, `eta`). -/
theorem C7_zero_mean_after_iterate (N ndim : Nat) (momentum eta : ℚ)
    (Y dY uY gains : Nat → ℚ) (hN : 0 < N) (d : Nat) (hd : d < ndim) :
    Qdtsne.colSum N ndim d
      (Qdtsne.iterateAfterGradient N ndim momentum eta Y dY uY gains).1 = 0 := by
  classical
  set Z := Qdtsne.applyVelocity (N * ndim)
    Y (Qdtsne.updateVelocity (N * ndim) momentum eta uY
        (Qdtsne.updateGains (N * ndim) gains dY uY) dY) with hZ
  have hout : (Qdtsne.iterateAfterGradient N ndim momentum eta Y dY uY gains).1
      = Qdtsne.recenter N ndim Z := rfl
  rw [hout, Qdtsne.colSum_eq_finset]
  have hidx : ∀ i < N, (i * ndim + d) % ndim = d := by
    intro i _
    rw [Nat.add_comm, Nat.add_mul_mod_self_right, Nat.mod_eq_of_lt hd]
  have hlt : ∀ i < N, i * ndim + d < N * ndim := by
    intro i hi
    calc i * ndim + d < i * ndim + ndim := by omega
    _ = (i + 1) * ndim := by ring
    _ ≤ N * ndim := Nat.mul_le_mul_right ndim hi
  have hsum : ∀ i ∈ Finset.range N,
      Qdtsne.recenter N ndim Z (i * ndim + d)
        = Z (i * ndim + d) - Qdtsne.colSum N ndim d Z / N := by
    intro i hi
    have hi' := Finset.mem_range.mp hi
    simp only [Qdtsne.recenter, if_pos (hlt i hi'), hidx i hi']
  rw [Finset.sum_congr rfl hsum, Finset.sum_sub_distrib, Finset.sum_const,
    Finset.card_range, nsmul_eq_mul, ← Qdtsne.colSum_eq_finset]
  have hNQ : (N : ℚ) ≠ 0 := Nat.cast_ne_zero.mpr (Nat.pos_iff_ne_zero.mp hN)
  field_simp

/-- Witness for `C7_zero_mean_after_iterate` at `N = 2`, `ndim = 2`, `d = 1`,
zero buffers. -/
theorem C7_zero_mean_after_iterate_witness :
    (0 : Nat) < 2 ∧ (1 : Nat) < 2 ∧
      Qdtsne.colSum 2 2 1
        (Qdtsne.iterateAfterGradient 2 2 (1/2) 200
          (fun _ => 1) (fun _ => 0) (fun _ => 0) (fun _ => 1)).1 = 0 :=
  ⟨by decide, by decide,
    C7_zero_mean_after_iterate 2 2 (1/2) 200
      (fun _ => 1) (fun _ => 0) (fun _ => 0) (fun _ => 1)
      (by decide) 1 (by decide)⟩

namespace Qdtsne

lemma runLoop_spec (stop ms maxI : Int) (exagg sm fm : ℚ) :
    ∀ (fuel : Nat) (iter0 : Int) (mult mom : ℚ),
      ((iter0 < stop → mult = exagg) ∧ (stop < iter0 → mult = 1)) →
      ((iter0 < ms → mom = sm) ∧ (ms < iter0 → mom = fm)) →
      ∀ e ∈ runLoop stop ms maxI fm fuel iter0 mult mom,
        e.2.1 = (if e.1 < stop then exagg else 1) ∧
          e.2.2 = (if e.1 < ms then sm else fm) := by
  intro fuel
  induction fuel with
  | zero => intro iter0 mult mom _ _ e he; simp [runLoop] at he
  | succ n ih =>
    intro iter0 mult mom hmult hmom e he
    by_cases hrun : iter0 < maxI
    · simp only [runLoop, if_pos hrun, List.mem_cons] at he
      rcases he with he | he
      · subst he
        constructor
        · by_cases h1 : iter0 = stop
          · simp [h1, lt_irrefl]
          · rcases lt_trichotomy iter0 stop with h | h | h
            · simp [if_neg h1, hmult.1 h, if_pos h]
            · exact absurd h h1
            · simp [if_neg h1, hmult.2 h, if_neg (not_lt_of_gt h)]
        · by_cases h1 : iter0 = ms
          · simp [h1, lt_irrefl]
          · rcases lt_trichotomy iter0 ms with h | h | h
            · simp [if_neg h1, hmom.1 h, if_pos h]
            · exact absurd h h1
            · simp [if_neg h1, hmom.2 h, if_neg (not_lt_of_gt h)]
      · refine ih (iter0 + 1) _ _ ⟨?_, ?_⟩ ⟨?_, ?_⟩ e he
        · intro h
          have hlt : iter0 < stop := by omega
          have hne : iter0 ≠ stop := by omega
          simp [if_neg hne, hmult.1 hlt]
        · intro h
          by_cases h1 : iter0 = stop
          · simp [h1]
          · have : stop < iter0 := by omega
            simp [if_neg h1, hmult.2 this]
        · intro h
          have hlt : iter0 < ms := by omega
          have hne : iter0 ≠ ms := by omega
          simp [if_neg hne, hmom.1 hlt]
        · intro h
          by_cases h1 : iter0 = ms
          · simp [h1]
          · have : ms < iter0 := by omega
            simp [if_neg h1, hmom.2 this]
    · simp [runLoop, if_neg hrun] at he

end Qdtsne

/-- **C5**: for every iteration index `iter` executed by `run` — including
runs resumed from a `Status` whose counter `iter0` is already past a
threshold — the attractive-force multiplier passed to `iterate` equals
`exaggeration_factor` when `iter < stop_lying_iter` and `1` thereafter, and
the momentum equals `start_momentum` when `iter < mom_switch_iter` and
`final_momentum` thereafter. -/
theorem C5_run_schedule (stop ms maxI : Int) (exagg sm fm : ℚ) (iter0 : Int)
    (e : Int × ℚ × ℚ)
    (he : e ∈ Qdtsne.runSchedule stop ms maxI exagg sm fm iter0) :
    e.2.1 = (if e.1 < stop then exagg else 1) ∧
      e.2.2 = (if e.1 < ms then sm else fm) := by
  refine Qdtsne.runLoop_spec stop ms maxI exagg sm fm _ iter0 _ _ ⟨?_, ?_⟩ ⟨?_, ?_⟩ e he
  · intro h; simp [if_pos h]
  · intro h; simp [if_neg (not_lt_of_gt h)]
  · intro h; simp [if_pos h]
  · intro h; simp [if_neg (not_lt_of_gt h)]

/-- Witness for `C5_run_schedule`: a run resumed at `iter0 = 0` with
`stop_lying_iter = 2`, `mom_switch_iter = 3`, `max_iter = 5` passes
`(3, 1, 4/5)` to `iterate`, and indeed `3 ≥ 2` gives multiplier `1`, and
`3 ≥ 3` gives momentum `final_momentum = 4/5`. -/
theorem C5_run_schedule_witness :
    ((3 : Int), (1 : ℚ), (4/5 : ℚ)) ∈ Qdtsne.runSchedule 2 3 5 12 (1/2) (4/5) 0 ∧
      ((1 : ℚ) = if (3 : Int) < 2 then 12 else 1) ∧
        ((4/5 : ℚ) = if (3 : Int) < 3 then 1/2 else 4/5) := by
  have hm : ((3 : Int), (1 : ℚ), (4/5 : ℚ))
      ∈ Qdtsne.runSchedule 2 3 5 12 (1/2) (4/5) 0 := by
    norm_num [Qdtsne.runSchedule, Qdtsne.runLoop]
  exact ⟨hm, C5_run_schedule 2 3 5 12 (1/2) (4/5) 0 _ hm⟩

namespace Qdtsne

lemma gaussIterate_inl {expF logF sdd qdd K logPerp st r}
    (h : gaussIterate expF logF sdd qdd K logPerp st = .inl r) :
    KernelInv expF sdd K r ∧ r.iters = st.iters + 1 := by
  simp only [gaussIterate] at h
  split at h
  · injection h with h'
    subst h'
    exact ⟨⟨st.beta, rfl, by simp [mkOutput]⟩, rfl⟩
  · exact absurd h (by simp)

lemma gaussIterate_inr {expF logF sdd qdd K logPerp st r}
    (h : gaussIterate expF logF sdd qdd K logPerp st = .inr r) :
    KernelInv expF sdd K r ∧ r.iters = st.iters + 1 := by
  simp only [gaussIterate] at h
  split at h
  · exact absurd h (by simp)
  · injection h with h'
    subst h'
    exact ⟨⟨st.beta, rfl, by simp [mkOutput]⟩, rfl⟩

lemma gaussLoop_zero (expF logF : ℚ → ℚ) (sdd qdd : Nat → ℚ) (K : Nat)
    (logPerp : ℚ) (st : BetaState) :
    gaussLoop expF logF sdd qdd K logPerp 0 st = st := rfl

lemma gaussLoop_succ (expF logF : ℚ → ℚ) (sdd qdd : Nat → ℚ) (K : Nat)
    (logPerp : ℚ) (fuel : Nat) (st : BetaState) :
    gaussLoop expF logF sdd qdd K logPerp (fuel + 1) st
      = match gaussIterate expF logF sdd qdd K logPerp st with
        | .inl done => done
        | .inr st' => gaussLoop expF logF sdd qdd K logPerp fuel st' := rfl

lemma gaussLoop_inv (expF logF : ℚ → ℚ) (sdd qdd : Nat → ℚ) (K : Nat)
    (logPerp : ℚ) :
    ∀ (fuel : Nat) (st : BetaState),
      KernelInv expF sdd K st →
      KernelInv expF sdd K (gaussLoop expF logF sdd qdd K logPerp fuel st) := by
  intro fuel
  induction fuel with
  | zero => intro st h; exact h
  | succ n ih =>
    intro st h
    rw [gaussLoop_succ]
    cases heq : gaussIterate expF logF sdd qdd K logPerp st with
    | inl done => exact (gaussIterate_inl heq).1
    | inr st' => exact ih st' (gaussIterate_inr heq).1

lemma gaussLoop_inv_of_pos (expF logF : ℚ → ℚ) (sdd qdd : Nat → ℚ) (K : Nat)
    (logPerp : ℚ) (fuel : Nat) (st : BetaState) (hf : 1 ≤ fuel) :
    KernelInv expF sdd K (gaussLoop expF logF sdd qdd K logPerp fuel st) := by
  obtain ⟨n, rfl⟩ : ∃ n, fuel = n + 1 :=
    ⟨fuel - 1, (Nat.succ_pred_eq_of_pos hf).symm⟩
  rw [gaussLoop_succ]
  cases heq : gaussIterate expF logF sdd qdd K logPerp st with
  | inl done => exact (gaussIterate_inl heq).1
  | inr st' =>
    exact gaussLoop_inv expF logF sdd qdd K logPerp n st'
      (gaussIterate_inr heq).1

lemma gaussLoop_iters (expF logF : ℚ → ℚ) (sdd qdd : Nat → ℚ) (K : Nat)
    (logPerp : ℚ) :
    ∀ (fuel : Nat) (st : BetaState),
      (gaussLoop expF logF sdd qdd K logPerp fuel st).iters ≤ st.iters + fuel := by
  intro fuel
  induction fuel with
  | zero => intro st; rw [gaussLoop_zero]; omega
  | succ n ih =>
    intro st
    rw [gaussLoop_succ]
    cases heq : gaussIterate expF logF sdd qdd K logPerp st with
    | inl done =>
      change done.iters ≤ st.iters + (n + 1)
      have := (gaussIterate_inl heq).2
      omega
    | inr st' =>
      change (gaussLoop expF logF sdd qdd K logPerp n st').iters
        ≤ st.iters + (n + 1)
      have h1 := (gaussIterate_inr heq).2
      have h2 := ih st'
      omega

lemma mkOutput_sum_pos (expF : ℚ → ℚ) (sdd : Nat → ℚ) (K : Nat) (b : ℚ)
    (hexp : ∀ x, 0 ≤ expF x) : 0 < (mkOutput expF sdd K b).sum := by
  have htail : 0 ≤ ((List.range (K - 1)).map
      (fun j => expF (-b * sdd (j + 1)))).sum := by
    apply List.sum_nonneg
    intro x hx
    obtain ⟨j, _, rfl⟩ := List.mem_map.mp hx
    exact hexp _
  simp only [mkOutput, List.sum_cons]
  linarith

lemma mkOutput_length (expF : ℚ → ℚ) (sdd : Nat → ℚ) (K : Nat) (b : ℚ)
    (hK : 1 ≤ K) : (mkOutput expF sdd K b).length = K := by
  simp [mkOutput]
  omega

lemma list_sum_map_div (l : List ℚ) (c : ℚ) :
    (l.map (fun o => o / c)).sum = l.sum / c := by
  induction l with
  | nil => simp
  | cons a t ih => simp [ih, add_div]

end Qdtsne

/-- **C8**: for every input row, `compute_gaussian_perplexity` is total (it
raises no error): the bandwidth search performs at most 200 iterations, and —
whether or not the entropy tolerance was met when the cap was hit — the last
kernel buffer is divided by its own final normalizer `S = sum_P`, so the
output row has length `K` and sums to exactly 1 (exact arithmetic; the
10⁻¹²-style float tolerance is subsumed).  `expF` is an arbitrary nonnegative
function standing for `std::exp`; `logF` and the entropy target are
arbitrary. -/
theorem C8_gaussian_row_total (expF logF : ℚ → ℚ) (K : Nat) (dist : Nat → ℚ)
    (logPerp : ℚ) (hexp : ∀ x, 0 ≤ expF x) (hK : 1 ≤ K) :
    (Qdtsne.gaussianRow expF logF K dist logPerp).2 ≤ 200 ∧
      (Qdtsne.gaussianRow expF logF K dist logPerp).1.length = K ∧
      (Qdtsne.gaussianRow expF logF K dist logPerp).1.sum = 1 := by
  classical
  unfold Qdtsne.gaussianRow
  set sdd : Nat → ℚ := fun m => dist m * dist m - dist 0 * dist 0 with hsdd
  set qdd : Nat → ℚ := fun m => sdd m * sdd m with hqdd
  set final := Qdtsne.gaussLoop expF logF sdd qdd K logPerp 200
    ⟨1, 0, Qdtsne.maxValue, [1], 0, 0⟩ with hfinal
  obtain ⟨b, hout, hsum⟩ :=
    Qdtsne.gaussLoop_inv_of_pos expF logF sdd qdd K logPerp 200
      ⟨1, 0, Qdtsne.maxValue, [1], 0, 0⟩ (by omega)
  have hpos : 0 < final.sumP := by
    rw [hsum, hout]
    exact Qdtsne.mkOutput_sum_pos expF sdd K b hexp
  refine ⟨?_, ?_, ?_⟩
  · have := Qdtsne.gaussLoop_iters expF logF sdd qdd K logPerp 200
      ⟨1, 0, Qdtsne.maxValue, [1], 0, 0⟩
    simpa using this
  · simp only [List.length_map]
    rw [hout]
    exact Qdtsne.mkOutput_length expF sdd K b hK
  · rw [Qdtsne.list_sum_map_div, ← hsum, div_self (ne_of_gt hpos)]

/-- Witness for `C8_gaussian_row_total` with `expF = exp`-like constant 1,
`K = 2`. -/
theorem C8_gaussian_row_total_witness :
    (∀ x : ℚ, (0 : ℚ) ≤ 1) ∧ (1 : Nat) ≤ 2 ∧
      ((Qdtsne.gaussianRow (fun _ => 1) (fun _ => 0) 2 (fun _ => 1) 0).2 ≤ 200 ∧
        (Qdtsne.gaussianRow (fun _ => 1) (fun _ => 0) 2 (fun _ => 1) 0).1.length = 2 ∧
        (Qdtsne.gaussianRow (fun _ => 1) (fun _ => 0) 2 (fun _ => 1) 0).1.sum = 1) :=
  ⟨fun _ => by norm_num, by norm_num,
    C8_gaussian_row_total (fun _ => 1) (fun _ => 0) 2 (fun _ => 1) 0
      (fun _ => by norm_num) (by norm_num)⟩

namespace Qdtsne

lemma findK_some_spec {J : Nat → Nat → Nat} {K r target u : Nat}
    (h : findK J K r target = some u) : u < K ∧ J r u = target := by
  have hmem : u ∈ List.range K := List.mem_of_find?_eq_some h
  have hp := List.find?_some h
  exact ⟨List.mem_range.mp hmem, by simpa using hp⟩

lemma findK_isSome {J : Nat → Nat → Nat} {K r target u : Nat}
    (hu : u < K) (hJ : J r u = target) : (findK J K r target).isSome := by
  rw [findK, List.find?_isSome]
  exact ⟨u, List.mem_range.mpr hu, by simpa using hJ⟩

lemma findK_eq_some {J : Nat → Nat → Nat} {N K r target u : Nat}
    (hv : ValidNeighbors J N K) (hr : r < N)
    (hu : u < K) (hJ : J r u = target) : findK J K r target = some u := by
  have hs := findK_isSome (J := J) hu hJ
  obtain ⟨a, ha⟩ := Option.isSome_iff_exists.mp hs
  obtain ⟨haK, haJ⟩ := findK_some_spec ha
  have : a = u := hv.distinct r hr a haK u hu (haJ.trans hJ.symm)
  rw [ha, this]

lemma findK_none_iff {J : Nat → Nat → Nat} {K r target : Nat} :
    findK J K r target = none ↔ ∀ u < K, J r u ≠ target := by
  constructor
  · intro h u hu hJ
    have := findK_isSome (J := J) hu hJ
    rw [h] at this
    simp at this
  · intro h
    rw [← Option.not_isSome_iff_eq_none]
    intro hs
    obtain ⟨a, ha⟩ := Option.isSome_iff_exists.mp hs
    obtain ⟨haK, haJ⟩ := findK_some_spec ha
    exact h a haK haJ

lemma trigger_fst_lt {J : Nat → Nat → Nat} {K i k : Nat} (h : i < J i k) :
    trigger J K i k = (i, k) := if_pos h

lemma trigger_fst_ge {J : Nat → Nat → Nat} {K i k : Nat} (h : ¬ i < J i k) :
    trigger J K i k = (J i k, (findK J K (J i k) i).getD 0) := if_neg h

lemma summedAt_mono {J : Nat → Nat → Nat} {K i k n t : Nat}
    (h : summedAt J K i k n t) : summedAt J K i k n (t + 1) := by
  obtain ⟨h1, h2⟩ := h
  refine ⟨h1, ?_⟩
  rcases h2 with h2 | ⟨h2, h3⟩
  · exact Or.inl h2
  · exact Or.inr ⟨h2, Nat.lt_succ_of_lt h3⟩

lemma summedAt_succ_elim {J : Nat → Nat → Nat} {K i k n t : Nat}
    (h : summedAt J K i k n (t + 1)) :
    summedAt J K i k n t ∨
      ((findK J K (J i k) i).isSome ∧ trigger J K i k = (n, t)) := by
  obtain ⟨h1, h2⟩ := h
  rcases h2 with h2 | ⟨h2, h3⟩
  · exact Or.inl ⟨h1, Or.inl h2⟩
  · rcases Nat.lt_succ_iff_lt_or_eq.mp h3 with h3 | h3
    · exact Or.inl ⟨h1, Or.inr ⟨h2, h3⟩⟩
    · exact Or.inr ⟨h1, Prod.ext h2 h3⟩

/-- A mutual slot whose trigger is `(n, t)` is either the slot `(n, t)`
itself (with `n` below its neighbor), or the reverse slot in the row of
`J n t`. -/
lemma trigger_eq_cases {J : Nat → Nat → Nat} {K i k n t : Nat}
    (hmut : (findK J K (J i k) i).isSome)
    (htr : trigger J K i k = (n, t)) :
    (i = n ∧ k = t ∧ n < J n t) ∨ (i = J n t ∧ J i k = n ∧ ¬ i < n) := by
  by_cases hik : i < J i k
  · rw [trigger_fst_lt hik] at htr
    obtain ⟨h1, h2⟩ := Prod.mk.injEq .. ▸ htr
    left
    refine ⟨h1, h2, ?_⟩
    rw [← h1, ← h2]
    exact hik
  · rw [trigger_fst_ge hik] at htr
    obtain ⟨h1, h2⟩ := Prod.mk.injEq .. ▸ htr
    obtain ⟨u, hu⟩ := Option.isSome_iff_exists.mp hmut
    obtain ⟨huK, huJ⟩ := findK_some_spec hu
    right
    have hgd : (findK J K (J i k) i).getD 0 = u := by rw [hu]; rfl
    have hut : u = t := by rw [← h2, hgd]
    refine ⟨?_, h1, ?_⟩
    · rw [← h1, ← hut, huJ]
    · rw [← h1]
      exact hik

lemma withinCond_succ {J : Nat → Nat → Nat} {K r n t : Nat} :
    withinCond J K r n (t + 1)
      = (withinCond J K r n t || ((J n t == r) && !(hasNeighbor J K r n))) := by
  unfold withinCond
  rw [List.range_succ, List.any_append]
  simp only [List.any_cons, List.any_nil, Bool.or_false]
  cases h1 : (List.range t).any (fun k1 => J n k1 == r) <;>
    cases h2 : (J n t == r) <;> cases h3 : hasNeighbor J K r n <;> simp

lemma ExtraInv_succ_of_hit {J : Nat → Nat → Nat} {P0 : Nat → Nat → ℚ}
    {K : Nat} {st : SymState} {n t k2 : Nat}
    (hcase : findK J K (J n t) n = some k2)
    (he : ExtraInv J P0 K st n t) : ExtraInv J P0 K st n (t + 1) := by
  intro r
  have hwc : withinCond J K r n (t + 1) = withinCond J K r n t := by
    rw [withinCond_succ]
    by_cases hr : J n t = r
    · have hnb : hasNeighbor J K r n = true := by
        unfold hasNeighbor
        rw [← hr, hcase]
        rfl
      rw [hnb]
      simp
    · have h2 : (J n t == r) = false := by simp [hr]
      rw [h2]
      simp
  have hal : appendedList J K r n (t + 1) = appendedList J K r n t := by
    unfold appendedList
    rw [hwc]
  rw [hal]
  exact he r

/-- Invariant preservation across one `(n, t)` step of the pairing loop. -/
lemma pairStep_inv {J : Nat → Nat → Nat} {P0 : Nat → Nat → ℚ} {N K : Nat}
    (hv : ValidNeighbors J N K) {st : SymState} {n t : Nat}
    (hn : n < N) (ht : t < K)
    (hp : ProbsInv J P0 N K st n t) (he : ExtraInv J P0 K st n t) :
    ProbsInv J P0 N K (pairStep J K st n t) n (t + 1) ∧
      ExtraInv J P0 K (pairStep J K st n t) n (t + 1) := by
  have hjN : J n t < N := hv.target_lt n hn t ht
  have hjn : J n t ≠ n := hv.no_self n hn t ht
  have hfn : findK J K n (J n t) = some t := findK_eq_some hv hn ht rfl
  cases hcase : findK J K (J n t) n with
  | some k2 =>
    obtain ⟨hk2K, hk2J⟩ := findK_some_spec hcase
    by_cases hlt : n < J n t
    · -- the mutual pair is handled here: both slots receive the sum
      have hps : pairStep J K st n t = { st with probs := fun a b =>
          (if a = n ∧ b = t then st.probs n t + st.probs (J n t) k2
            else if a = J n t ∧ b = k2 then st.probs n t + st.probs (J n t) k2
            else st.probs a b) } := by
        simp only [pairStep]
        rw [hcase]
        dsimp only
        rw [if_pos hlt]
      have htrn : trigger J K n t = (n, t) := trigger_fst_lt hlt
      have htrj : trigger J K (J n t) k2 = (n, t) := by
        have h1 : ¬ J n t < J (J n t) k2 := by
          rw [hk2J]
          omega
        rw [trigger_fst_ge h1, hk2J, hfn]
        rfl
      have hsum_nt : ¬ summedAt J K n t n t := by
        rintro ⟨_, h2⟩
        rw [htrn] at h2
        rcases h2 with h2 | ⟨_, h2⟩ <;> omega
      have hsum_jk2 : ¬ summedAt J K (J n t) k2 n t := by
        rintro ⟨_, h2⟩
        rw [htrj] at h2
        rcases h2 with h2 | ⟨_, h2⟩ <;> omega
      have hval_nt : st.probs n t = P0 n t := by
        have h := hp n t
        rw [if_neg (fun hc => hsum_nt hc.2.2)] at h
        simpa using h
      have hval_jk2 : st.probs (J n t) k2 = P0 (J n t) k2 := by
        have h := hp (J n t) k2
        rw [if_neg (fun hc => hsum_jk2 hc.2.2)] at h
        simpa using h
      refine ⟨?_, ?_⟩
      · rw [hps]
        intro i k
        dsimp only
        by_cases h1 : i = n ∧ k = t
        · obtain ⟨rfl, rfl⟩ := h1
          rw [if_pos ⟨rfl, rfl⟩]
          have hsum' : summedAt J K i k i (k + 1) := by
            refine ⟨?_, ?_⟩
            · rw [hcase]
              rfl
            · rw [htrn]
              right
              exact ⟨rfl, Nat.lt_succ_self k⟩
          rw [if_pos ⟨hn, ht, hsum'⟩]
          have haT : addTerm J P0 K i k = P0 (J i k) k2 := by
            unfold addTerm
            rw [hcase]
          rw [haT, hval_nt, hval_jk2]
        · by_cases h2 : i = J n t ∧ k = k2
          · obtain ⟨rfl, rfl⟩ := h2
            rw [if_neg (fun hc => hjn hc.1), if_pos ⟨rfl, rfl⟩]
            have hsum' : summedAt J K (J n t) k n (t + 1) := by
              refine ⟨?_, ?_⟩
              · rw [hk2J, hfn]
                rfl
              · rw [htrj]
                right
                exact ⟨rfl, Nat.lt_succ_self t⟩
            rw [if_pos ⟨hjN, hk2K, hsum'⟩]
            have haT : addTerm J P0 K (J n t) k = P0 n t := by
              unfold addTerm
              rw [hk2J, hfn]
            rw [haT, hval_nt, hval_jk2]
            exact add_comm _ _
          · rw [if_neg h1, if_neg h2, hp i k]
            congr 1
            by_cases hc : i < N ∧ k < K ∧ summedAt J K i k n t
            · rw [if_pos hc, if_pos ⟨hc.1, hc.2.1, summedAt_mono hc.2.2⟩]
            · have hneg : ¬ (i < N ∧ k < K ∧ summedAt J K i k n (t + 1)) := by
                rintro ⟨hiN, hkK, hs⟩
                rcases summedAt_succ_elim hs with hs' | ⟨hmut, htr⟩
                · exact hc ⟨hiN, hkK, hs'⟩
                · rcases trigger_eq_cases hmut htr with ⟨hia, hka, _⟩ |
                    ⟨hia, hJik, _⟩
                  · exact h1 ⟨hia, hka⟩
                  · have hkk2 : k = k2 := by
                      apply hv.distinct (J n t) hjN k hkK k2 hk2K
                      rw [hk2J, ← hia]
                      exact hJik
                    exact h2 ⟨hia, hkk2⟩
              rw [if_neg hc, if_neg hneg]
      · rw [hps]
        intro r
        exact ExtraInv_succ_of_hit hcase he r
    · -- already handled when the outer loop was at the smaller endpoint
      have hps : pairStep J K st n t = st := by
        simp only [pairStep]
        rw [hcase]
        dsimp only
        rw [if_neg hlt]
      have hjltn : J n t < n := by omega
      rw [hps]
      refine ⟨?_, ExtraInv_succ_of_hit hcase he⟩
      intro i k
      rw [hp i k]
      congr 1
      by_cases hc : i < N ∧ k < K ∧ summedAt J K i k n t
      · rw [if_pos hc, if_pos ⟨hc.1, hc.2.1, summedAt_mono hc.2.2⟩]
      · have hneg : ¬ (i < N ∧ k < K ∧ summedAt J K i k n (t + 1)) := by
          rintro ⟨hiN, hkK, hs⟩
          rcases summedAt_succ_elim hs with hs' | ⟨hmut, htr⟩
          · exact hc ⟨hiN, hkK, hs'⟩
          · rcases trigger_eq_cases hmut htr with ⟨_, _, hlt'⟩ | ⟨hia, _, hge⟩
            · exact hlt hlt'
            · exact hge (by rw [hia]; exact hjltn)
        rw [if_neg hc, if_neg hneg]
  | none =>
    have hps : pairStep J K st n t = { st with
        extraIdx := fun r =>
          if r = J n t then st.extraIdx r ++ [n] else st.extraIdx r,
        extraVal := fun r =>
          if r = J n t then st.extraVal r ++ [st.probs n t]
          else st.extraVal r } := by
      simp only [pairStep]
      rw [hcase]
    have hnb : hasNeighbor J K (J n t) n = false := by
      unfold hasNeighbor
      rw [hcase]
      rfl
    refine ⟨?_, ?_⟩
    · rw [hps]
      intro i k
      dsimp only
      rw [hp i k]
      congr 1
      by_cases hc : i < N ∧ k < K ∧ summedAt J K i k n t
      · rw [if_pos hc, if_pos ⟨hc.1, hc.2.1, summedAt_mono hc.2.2⟩]
      · have hneg : ¬ (i < N ∧ k < K ∧ summedAt J K i k n (t + 1)) := by
          rintro ⟨hiN, hkK, hs⟩
          rcases summedAt_succ_elim hs with hs' | ⟨hmut, htr⟩
          · exact hc ⟨hiN, hkK, hs'⟩
          · rcases trigger_eq_cases hmut htr with ⟨hia, hka, _⟩ |
              ⟨hia, hJik, _⟩
            · rw [hia, hka, hcase] at hmut
              simp at hmut
            · have hJ' : J (J n t) k = n := by
                rw [← hia]
                exact hJik
              have hsome := findK_isSome (J := J) (K := K) hkK hJ'
              rw [hcase] at hsome
              simp at hsome
        rw [if_neg hc, if_neg hneg]
    · rw [hps]
      intro r
      dsimp only
      by_cases hr : r = J n t
      · rw [if_pos hr, if_pos hr]
        have hnb' : hasNeighbor J K r n = false := by
          rw [hr]
          exact hnb
        have hany : ((List.range t).any fun k1 => J n k1 == r) = false := by
          rw [List.any_eq_false]
          intro k1 hk1
          simp only [beq_iff_eq]
          intro hJ
          have := hv.distinct n hn k1
            (Nat.lt_trans (List.mem_range.mp hk1) ht) t ht (hJ.trans hr)
          have hk1t := List.mem_range.mp hk1
          omega
        have hwt0 : withinCond J K r n t = false := by
          unfold withinCond
          rw [hany]
          rfl
        have hwt1 : withinCond J K r n (t + 1) = true := by
          rw [withinCond_succ, hwt0, hnb']
          simp
          exact hr.symm
        have hal1 : appendedList J K r n (t + 1) = appendedList J K r n t ++ [n] := by
          unfold appendedList
          rw [hwt0, hwt1]
          simp
        obtain ⟨hei, hev⟩ := he r
        refine ⟨?_, ?_⟩
        · rw [hal1, ← hei]
        · rw [hal1, List.map_append, ← hev]
          have hval : st.probs n t = P0 n t := by
            have h := hp n t
            have hns : ¬ summedAt J K n t n t := by
              rintro ⟨hmut, _⟩
              rw [hcase] at hmut
              simp at hmut
            rw [if_neg (fun hc => hns hc.2.2)] at h
            simpa using h
          have hfn' : findK J K n r = some t := by
            rw [hr]
            exact hfn
          simp only [List.map_cons, List.map_nil, hfn', Option.getD_some, hval]
      · rw [if_neg hr, if_neg hr]
        have h2 : (J n t == r) = false := by
          simp only [beq_eq_false_iff_ne, ne_eq]
          exact fun hc => hr hc.symm
        have hwc : withinCond J K r n (t + 1) = withinCond J K r n t := by
          rw [withinCond_succ, h2]
          simp
        have hal : appendedList J K r n (t + 1) = appendedList J K r n t := by
          unfold appendedList
          rw [hwc]
        rw [hal]
        exact he r

lemma hasNeighbor_eq_any {J : Nat → Nat → Nat} {K n r : Nat} :
    hasNeighbor J K n r = ((List.range K).any fun k1 => J n k1 == r) := by
  rw [Bool.eq_iff_iff]
  unfold hasNeighbor findK
  rw [List.find?_isSome, List.any_eq_true]

/-- The inner loop of the pairing phase preserves the invariant from `(n, 0)`
to `(n, K)`. -/
lemma innerFold_inv {J : Nat → Nat → Nat} {P0 : Nat → Nat → ℚ} {N K : Nat}
    (hv : ValidNeighbors J N K) {st : SymState} {n : Nat} (hn : n < N) :
    ∀ T ≤ K, ProbsInv J P0 N K st n 0 → ExtraInv J P0 K st n 0 →
      ProbsInv J P0 N K
          ((List.range T).foldl (fun s k1 => pairStep J K s n k1) st) n T ∧
        ExtraInv J P0 K
          ((List.range T).foldl (fun s k1 => pairStep J K s n k1) st) n T := by
  intro T
  induction T with
  | zero => intro _ hp he; exact ⟨hp, he⟩
  | succ m ih =>
    intro hm hp he
    rw [List.range_succ, List.foldl_append, List.foldl_cons, List.foldl_nil]
    obtain ⟨hp', he'⟩ := ih (Nat.le_of_succ_le hm) hp he
    exact pairStep_inv hv hn (Nat.lt_of_succ_le hm) hp' he'

lemma withinCond_K_eq {J : Nat → Nat → Nat} {K r n : Nat} :
    withinCond J K r n K = appendCond J K n r := by
  unfold withinCond appendCond
  simp only [hasNeighbor_eq_any]

lemma appendedList_next_row {J : Nat → Nat → Nat} {K r n : Nat} :
    appendedList J K r (n + 1) 0 = appendedList J K r n K := by
  unfold appendedList
  have h0 : withinCond J K r (n + 1) 0 = false := rfl
  rw [h0, withinCond_K_eq, List.range_succ, List.filter_append]
  by_cases hac : appendCond J K n r = true <;> simp [hac]

/-- Crossing from the end of one outer row to the start of the next. -/
lemma inv_next_row {J : Nat → Nat → Nat} {P0 : Nat → Nat → ℚ} {N K : Nat}
    {st : SymState} {n : Nat}
    (hp : ProbsInv J P0 N K st n K) (he : ExtraInv J P0 K st n K) :
    ProbsInv J P0 N K st (n + 1) 0 ∧ ExtraInv J P0 K st (n + 1) 0 := by
  constructor
  · intro i k
    rw [hp i k]
    congr 1
    have hiff : (i < N ∧ k < K ∧ summedAt J K i k n K)
        ↔ (i < N ∧ k < K ∧ summedAt J K i k (n + 1) 0) := by
      unfold summedAt
      constructor
      · rintro ⟨hiN, hkK, hmut, hd⟩
        refine ⟨hiN, hkK, hmut, Or.inl ?_⟩
        rcases hd with hd | ⟨hd, _⟩ <;> omega
      · rintro ⟨hiN, hkK, hmut, hd⟩
        refine ⟨hiN, hkK, hmut, ?_⟩
        rcases hd with hd | ⟨_, hd⟩
        · rcases Nat.lt_succ_iff_lt_or_eq.mp hd with hd | hd
          · exact Or.inl hd
          · right
            refine ⟨hd, ?_⟩
            by_cases hik : i < J i k
            · rw [trigger_fst_lt hik]
              exact hkK
            · rw [trigger_fst_ge hik]
              obtain ⟨u, hu⟩ := Option.isSome_iff_exists.mp hmut
              rw [hu]
              simpa using (findK_some_spec hu).1
        · omega
    by_cases hc : i < N ∧ k < K ∧ summedAt J K i k n K
    · rw [if_pos hc, if_pos (hiff.mp hc)]
    · rw [if_neg hc, if_neg (fun hcc => hc (hiff.mpr hcc))]
  · intro r
    rw [appendedList_next_row]
    exact he r

/-- After the full pairing phase, every valid slot holds its original
probability plus (for mutual pairs) the reverse probability, and row `r`'s
appended tail lists exactly the one-sided reverse neighbors. -/
lemma symPairPhase_inv {J : Nat → Nat → Nat} {P : Nat → Nat → ℚ} {N K : Nat}
    (hv : ValidNeighbors J N K) :
    ProbsInv J P N K (symPairPhase J P N K) N 0 ∧
      ExtraInv J P K (symPairPhase J P N K) N 0 := by
  unfold symPairPhase
  suffices h : ∀ M ≤ N,
      ProbsInv J P N K
          ((List.range M).foldl
            (fun st n => (List.range K).foldl
              (fun s k1 => pairStep J K s n k1) st)
            ⟨P, fun _ => [], fun _ => []⟩) M 0 ∧
        ExtraInv J P K
          ((List.range M).foldl
            (fun st n => (List.range K).foldl
              (fun s k1 => pairStep J K s n k1) st)
            ⟨P, fun _ => [], fun _ => []⟩) M 0 by
    exact h N (Nat.le_refl N)
  intro M
  induction M with
  | zero =>
    intro _
    constructor
    · intro i k
      have hns : ¬ summedAt J K i k 0 0 := by
        rintro ⟨_, hd⟩
        rcases hd with hd | ⟨_, hd⟩ <;> omega
      rw [if_neg (fun hc => hns hc.2.2)]
      simp
    · intro r
      refine ⟨rfl, rfl⟩
  | succ m ih =>
    intro hm
    rw [List.range_succ, List.foldl_append, List.foldl_cons, List.foldl_nil]
    obtain ⟨hp, he⟩ := ih (Nat.le_of_succ_le hm)
    obtain ⟨hp', he'⟩ :=
      innerFold_inv hv (Nat.lt_of_succ_le hm) K (Nat.le_refl K) hp he
    exact inv_next_row hp' he'

lemma phat_eq_of_some {J : Nat → Nat → Nat} {P : Nat → Nat → ℚ} {K i j u : Nat}
    (h : findK J K i j = some u) : phat J P K i j = P i u := by
  unfold phat
  rw [h]

lemma phat_eq_of_none {J : Nat → Nat → Nat} {P : Nat → Nat → ℚ} {K i j : Nat}
    (h : findK J K i j = none) : phat J P K i j = 0 := by
  unfold phat
  rw [h]

lemma summedAt_N_iff {J : Nat → Nat → Nat} {N K i k : Nat}
    (hv : ValidNeighbors J N K) (hiN : i < N) (hkK : k < K) :
    summedAt J K i k N 0 ↔ (findK J K (J i k) i).isSome := by
  unfold summedAt
  constructor
  · rintro ⟨h, _⟩
    exact h
  · intro h
    refine ⟨h, Or.inl ?_⟩
    by_cases hik : i < J i k
    · rw [trigger_fst_lt hik]
      exact hiN
    · rw [trigger_fst_ge hik]
      exact hv.target_lt i hiN k hkK

/-- Final content of original slot `(i, k)`: the symmetrized weight of the
pair `{i, J i k}`. -/
lemma probs_final {J : Nat → Nat → Nat} {P : Nat → Nat → ℚ} {N K : Nat}
    (hv : ValidNeighbors J N K) {i k : Nat} (hiN : i < N) (hkK : k < K) :
    (symPairPhase J P N K).probs i k = symVal J P K i (J i k) := by
  have h := (symPairPhase_inv (P := P) hv).1 i k
  rw [h]
  have hik : findK J K i (J i k) = some k := findK_eq_some hv hiN hkK rfl
  unfold symVal
  rw [phat_eq_of_some (P := P) hik]
  cases hm : findK J K (J i k) i with
  | some k2 =>
    rw [if_pos ⟨hiN, hkK, (summedAt_N_iff hv hiN hkK).mpr (by rw [hm]; rfl)⟩]
    have haT : addTerm J P K i k = P (J i k) k2 := by
      unfold addTerm
      rw [hm]
    rw [haT, phat_eq_of_some (P := P) hm]
  | none =>
    rw [if_neg (fun hc => by
      have hs := ((summedAt_N_iff hv hiN hkK).mp hc.2.2)
      rw [hm] at hs
      simp at hs)]
    rw [phat_eq_of_none (P := P) hm]

/-- Final content of the appended tails: the one-sided reverse neighbors in
ascending order, with their original probabilities. -/
lemma extra_final {J : Nat → Nat → Nat} {P : Nat → Nat → ℚ} {N K : Nat}
    (hv : ValidNeighbors J N K) (r : Nat) :
    (symPairPhase J P N K).extraIdx r
        = (List.range N).filter (fun m => appendCond J K m r) ∧
      (symPairPhase J P N K).extraVal r
        = ((List.range N).filter (fun m => appendCond J K m r)).map
            (fun m => P m ((findK J K m r).getD 0)) := by
  have h := (symPairPhase_inv (P := P) hv).2 r
  have hal : appendedList J K r N 0
      = (List.range N).filter (fun m => appendCond J K m r) := by
    unfold appendedList
    have h0 : withinCond J K r N 0 = false := rfl
    rw [h0]
    simp
  rw [hal] at h
  exact h

/-- Row `i` of the symmetrized output, rewritten as an explicit association
list: the `K` original neighbors with their symmetrized weights, followed by
the one-sided reverse neighbors with theirs. -/
lemma row_decomp {J : Nat → Nat → Nat} {P0 : Nat → Nat → ℚ} {N K : Nat}
    (hv : ValidNeighbors J N K) {i : Nat} (hiN : i < N) :
    (symRowIdx J P0 N K i).zip (symRowFinal J P0 N K i)
      = (List.range K).map (fun t => (J i t,
          symVal J P0 K i (J i t) / 2 / symTotal J P0 N K))
        ++ ((List.range N).filter (fun m => appendCond J K m i)).map
            (fun m => (m, phat J P0 K m i / 2 / symTotal J P0 N K)) := by
  obtain ⟨hei, hev⟩ := extra_final (P := P0) hv i
  unfold symRowIdx symRowFinal symRowRaw
  rw [hei, hev, List.map_append, List.map_append, List.map_map, List.map_map,
    List.map_map]
  rw [List.zip_append (by simp)]
  congr 1
  · rw [List.zip_map']
    apply List.map_congr_left
    intro t htK
    have hpf := probs_final (P := P0) hv hiN (List.mem_range.mp htK)
    simp only [Function.comp_apply, hpf]
  · rw [List.map_map]
    nth_rewrite 1 [show (List.range N).filter (fun m => appendCond J K m i)
        = ((List.range N).filter (fun m => appendCond J K m i)).map id
      from (List.map_id _).symm]
    rw [List.zip_map']
    apply List.map_congr_left
    intro m hm
    have hmf : appendCond J K m i = true := (List.mem_filter.mp hm).2
    have hmn : hasNeighbor J K m i = true := by
      unfold appendCond at hmf
      exact (Bool.and_eq_true_iff.mp hmf).1
    obtain ⟨u, hu⟩ := Option.isSome_iff_exists.mp hmn
    simp only [Function.comp_apply, id_eq, hu, Option.getD_some,
      phat_eq_of_some (P := P0) hu]

/-- An entry `(j, q)` appears in output row `i` exactly when `{i, j}` is an
edge of the raw neighbor graph (in either direction) and `q` is the
symmetrized weight halved and divided by the total. -/
lemma mem_row_iff {J : Nat → Nat → Nat} {P0 : Nat → Nat → ℚ} {N K : Nat}
    (hv : ValidNeighbors J N K) {i : Nat} (hiN : i < N) (j : Nat) (q : ℚ) :
    ((j, q) ∈ (symRowIdx J P0 N K i).zip (symRowFinal J P0 N K i))
      ↔ ((hasNeighbor J K i j = true ∨ (j < N ∧ hasNeighbor J K j i = true)) ∧
          q = symVal J P0 K i j / 2 / symTotal J P0 N K) := by
  rw [row_decomp hv hiN, List.mem_append, List.mem_map, List.mem_map]
  constructor
  · rintro (⟨t, htm, hteq⟩ | ⟨m, hmm, hmeq⟩)
    · have h1 : J i t = j := congrArg Prod.fst hteq
      have h2 : symVal J P0 K i (J i t) / 2 / symTotal J P0 N K = q :=
        congrArg Prod.snd hteq
      refine ⟨Or.inl ?_, ?_⟩
      · unfold hasNeighbor
        exact findK_isSome (List.mem_range.mp htm) h1
      · rw [← h2, h1]
    · have h1 : m = j := congrArg Prod.fst hmeq
      have h2 : phat J P0 K m i / 2 / symTotal J P0 N K = q :=
        congrArg Prod.snd hmeq
      obtain ⟨hmr, hmc⟩ := List.mem_filter.mp hmm
      have hmN : m < N := List.mem_range.mp hmr
      unfold appendCond at hmc
      obtain ⟨hyes, hno'⟩ := Bool.and_eq_true_iff.mp hmc
      have hno : findK J K i m = none := by
        have : (findK J K i m).isSome = false := by
          unfold hasNeighbor at hno'
          simpa using hno'
        exact Option.not_isSome_iff_eq_none.mp (by rw [this]; simp)
      refine ⟨Or.inr ⟨h1 ▸ hmN, h1 ▸ hyes⟩, ?_⟩
      rw [← h2, ← h1]
      unfold symVal
      rw [phat_eq_of_none (P := P0) hno, zero_add]
  · rintro ⟨hedge, hq⟩
    by_cases hij : hasNeighbor J K i j = true
    · left
      unfold hasNeighbor at hij
      obtain ⟨t, htk⟩ := Option.isSome_iff_exists.mp hij
      obtain ⟨htK, htJ⟩ := findK_some_spec htk
      refine ⟨t, List.mem_range.mpr htK, ?_⟩
      rw [htJ, hq]
    · rcases hedge with hedge | ⟨hjN, hji⟩
      · exact absurd hedge hij
      · right
        have hijf : hasNeighbor J K i j = false := by
          simpa using hij
        have hnone : findK J K i j = none := by
          unfold hasNeighbor at hijf
          exact Option.not_isSome_iff_eq_none.mp (by rw [hijf]; simp)
        refine ⟨j, List.mem_filter.mpr ⟨List.mem_range.mpr hjN, ?_⟩, ?_⟩
        · unfold appendCond
          rw [hji, hijf]
          rfl
        · have hsv : symVal J P0 K i j = phat J P0 K j i := by
            unfold symVal
            rw [phat_eq_of_none (P := P0) hnone, zero_add]
          rw [hq, hsv]

lemma phat_nonneg {J : Nat → Nat → Nat} {P : Nat → Nat → ℚ} {N K i j : Nat}
    (hP0 : ∀ a < N, ∀ b < K, 0 ≤ P a b) (hiN : i < N) :
    0 ≤ phat J P K i j := by
  unfold phat
  cases h : findK J K i j with
  | some u => exact hP0 i hiN u (findK_some_spec h).1
  | none => exact le_refl 0

lemma symVal_nonneg {J : Nat → Nat → Nat} {P : Nat → Nat → ℚ} {N K i j : Nat}
    (hP0 : ∀ a < N, ∀ b < K, 0 ≤ P a b) (hiN : i < N) (hjN : j < N) :
    0 ≤ symVal J P K i j :=
  add_nonneg (phat_nonneg hP0 hiN) (phat_nonneg hP0 hjN)

/-- Each raw row dominates (entrywise, hence in sum) its original `K`
probabilities, so the accumulated total is at least half the
pre-symmetrization total. -/
lemma symTotal_pos {J : Nat → Nat → Nat} {P0 : Nat → Nat → ℚ} {N K : Nat}
    (hv : ValidNeighbors J N K)
    (hP0 : ∀ a < N, ∀ b < K, 0 ≤ P0 a b)
    (hpos : 0 < ((List.range N).map
      (fun i => ((List.range K).map (P0 i)).sum)).sum) :
    0 < symTotal J P0 N K := by
  have hrow : ∀ i ∈ List.range N,
      ((List.range K).map (P0 i)).sum / 2
        ≤ ((symRowRaw J P0 N K i).map (fun y => y / 2)).sum := by
    intro i him
    have hiN : i < N := List.mem_range.mp him
    rw [list_sum_map_div]
    have hbase : ((List.range K).map (P0 i)).sum ≤ (symRowRaw J P0 N K i).sum := by
      unfold symRowRaw
      rw [List.sum_append]
      have h1 : ((List.range K).map (P0 i)).sum
          ≤ ((List.range K).map ((symPairPhase J P0 N K).probs i)).sum := by
        apply List.sum_le_sum
        intro t htm
        have htK : t < K := List.mem_range.mp htm
        rw [probs_final (P := P0) hv hiN htK]
        have hpf : phat J P0 K i (J i t) = P0 i t :=
          phat_eq_of_some (P := P0) (findK_eq_some hv hiN htK rfl)
        unfold symVal
        rw [hpf]
        have := phat_nonneg (J := J) (P := P0) (K := K) (j := i) hP0
          (hv.target_lt i hiN t htK)
        linarith
      have h2 : 0 ≤ ((symPairPhase J P0 N K).extraVal i).sum := by
        apply List.sum_nonneg
        intro x hx
        rw [(extra_final (P := P0) hv i).2] at hx
        obtain ⟨m, hmm, rfl⟩ := List.mem_map.mp hx
        obtain ⟨hmr, hmc⟩ := List.mem_filter.mp hmm
        have hmN : m < N := List.mem_range.mp hmr
        unfold appendCond at hmc
        obtain ⟨hyes, _⟩ := Bool.and_eq_true_iff.mp hmc
        unfold hasNeighbor at hyes
        obtain ⟨u, hu⟩ := Option.isSome_iff_exists.mp hyes
        rw [hu]
        exact hP0 m hmN u (findK_some_spec hu).1
      linarith
    linarith
  have h1 : ((List.range N).map
      (fun i => ((List.range K).map (P0 i)).sum / 2)).sum ≤ symTotal J P0 N K := by
    unfold symTotal
    exact List.sum_le_sum hrow
  have h2 : ((List.range N).map
        (fun i => ((List.range K).map (P0 i)).sum / 2)).sum
      = ((List.range N).map
          (fun i => ((List.range K).map (P0 i)).sum)).sum / 2 := by
    rw [show (List.range N).map (fun i => ((List.range K).map (P0 i)).sum / 2)
        = ((List.range N).map
            (fun i => ((List.range K).map (P0 i)).sum)).map (fun y => y / 2) by
      rw [List.map_map]
      rfl]
    exact list_sum_map_div _ _
  linarith

lemma output_row_lt {J : Nat → Nat → Nat} {P0 : Nat → Nat → ℚ} {N K i : Nat}
    (hiN : i < N) :
    (symmetrize_matrix_tsne J P0 N K).getD i []
      = (symRowIdx J P0 N K i).zip (symRowFinal J P0 N K i) := by
  unfold symmetrize_matrix_tsne
  have hlen : i < ((List.range N).map
      (fun i => (symRowIdx J P0 N K i).zip (symRowFinal J P0 N K i))).length := by
    simpa using hiN
  rw [List.getD_eq_getElem _ _ hlen, List.getElem_map, List.getElem_range]

lemma output_row_ge {J : Nat → Nat → Nat} {P0 : Nat → Nat → ℚ} {N K i : Nat}
    (hiN : N ≤ i) :
    (symmetrize_matrix_tsne J P0 N K).getD i [] = [] := by
  unfold symmetrize_matrix_tsne
  apply List.getD_eq_default
  simpa using hiN

lemma hasNeighbor_target_lt {J : Nat → Nat → Nat} {N K i j : Nat}
    (hv : ValidNeighbors J N K) (hiN : i < N)
    (h : hasNeighbor J K i j = true) : j < N := by
  unfold hasNeighbor at h
  obtain ⟨t, htk⟩ := Option.isSome_iff_exists.mp h
  obtain ⟨htK, htJ⟩ := findK_some_spec htk
  rw [← htJ]
  exact hv.target_lt i hiN t htK

lemma row_lengths_eq {J : Nat → Nat → Nat} {P0 : Nat → Nat → ℚ} {N K i : Nat}
    (hv : ValidNeighbors J N K) :
    (symRowFinal J P0 N K i).length = (symRowIdx J P0 N K i).length := by
  obtain ⟨hei, hev⟩ := extra_final (P := P0) hv i
  simp [symRowFinal, symRowRaw, symRowIdx, hei, hev]

end Qdtsne

/-- **C1**: for every valid neighbor input (in-range, self-free, duplicate-free
rows) with nonnegative probabilities of positive total — both guaranteed by
the Gaussian-perplexity stage — after `symmetrize_matrix` completes the
probability matrix is symmetric (`(j, q)` in row `i` iff `(i, q)` in row `j`,
with the same value `q`), every entry is nonnegative, and the sum of all
entries equals exactly 1 (exact arithmetic; the 10⁻¹² float tolerance is
subsumed). -/
theorem C1_symmetrize_probability_matrix
    (J : Nat → Nat → Nat) (P0 : Nat → Nat → ℚ) (N K : Nat)
    (hv : Qdtsne.ValidNeighbors J N K)
    (hP0 : ∀ a < N, ∀ b < K, 0 ≤ P0 a b)
    (hpos : 0 < ((List.range N).map
      (fun i => ((List.range K).map (P0 i)).sum)).sum) :
    (∀ i j q, ((j, q) ∈ (Qdtsne.symmetrize_matrix_tsne J P0 N K).getD i []) →
        ((i, q) ∈ (Qdtsne.symmetrize_matrix_tsne J P0 N K).getD j [])) ∧
      (∀ i j q,
        ((j, q) ∈ (Qdtsne.symmetrize_matrix_tsne J P0 N K).getD i []) → 0 ≤ q) ∧
      ((Qdtsne.symmetrize_matrix_tsne J P0 N K).map
          (fun row => (row.map Prod.snd).sum)).sum = 1 := by
  have hT := Qdtsne.symTotal_pos hv hP0 hpos
  refine ⟨?_, ?_, ?_⟩
  · intro i j q hmem
    by_cases hiN : i < N
    · rw [Qdtsne.output_row_lt hiN] at hmem
      obtain ⟨hedge, hq⟩ := (Qdtsne.mem_row_iff hv hiN j q).mp hmem
      have hjN : j < N := by
        rcases hedge with h | ⟨h, _⟩
        · exact Qdtsne.hasNeighbor_target_lt hv hiN h
        · exact h
      rw [Qdtsne.output_row_lt hjN]
      apply (Qdtsne.mem_row_iff hv hjN i q).mpr
      refine ⟨?_, ?_⟩
      · rcases hedge with h | ⟨_, h⟩
        · exact Or.inr ⟨hiN, h⟩
        · exact Or.inl h
      · rw [hq]
        unfold Qdtsne.symVal
        rw [add_comm]
    · rw [Qdtsne.output_row_ge (Nat.le_of_not_lt hiN)] at hmem
      simp at hmem
  · intro i j q hmem
    by_cases hiN : i < N
    · rw [Qdtsne.output_row_lt hiN] at hmem
      obtain ⟨hedge, hq⟩ := (Qdtsne.mem_row_iff hv hiN j q).mp hmem
      have hjN : j < N := by
        rcases hedge with h | ⟨h, _⟩
        · exact Qdtsne.hasNeighbor_target_lt hv hiN h
        · exact h
      rw [hq]
      have hs := Qdtsne.symVal_nonneg (J := J) (P := P0) (K := K) hP0 hiN hjN
      have h2 : (0 : ℚ) ≤ 2 := by norm_num
      exact div_nonneg (div_nonneg hs h2) hT.le
    · rw [Qdtsne.output_row_ge (Nat.le_of_not_lt hiN)] at hmem
      simp at hmem
  · unfold Qdtsne.symmetrize_matrix_tsne
    rw [List.map_map]
    rw [List.map_congr_left (f := (fun row => (List.map Prod.snd row).sum) ∘
        fun i => (Qdtsne.symRowIdx J P0 N K i).zip (Qdtsne.symRowFinal J P0 N K i))
      (g := fun i => (Qdtsne.symRowFinal J P0 N K i).sum) ?_]
    · rw [List.map_congr_left
        (g := fun i => ((Qdtsne.symRowRaw J P0 N K i).map (fun y => y / 2)).sum
          / Qdtsne.symTotal J P0 N K) ?_]
      · rw [show (List.range N).map
            (fun i => ((Qdtsne.symRowRaw J P0 N K i).map (fun y => y / 2)).sum
              / Qdtsne.symTotal J P0 N K)
            = ((List.range N).map
                (fun i => ((Qdtsne.symRowRaw J P0 N K i).map
                  (fun y => y / 2)).sum)).map
                (fun y => y / Qdtsne.symTotal J P0 N K) from by
          rw [List.map_map]
          rfl]
        rw [Qdtsne.list_sum_map_div]
        have hTdef : ((List.range N).map
            (fun i => ((Qdtsne.symRowRaw J P0 N K i).map
              (fun y => y / 2)).sum)).sum = Qdtsne.symTotal J P0 N K := rfl
        rw [hTdef]
        exact div_self (ne_of_gt hT)
      · intro i _
        unfold Qdtsne.symRowFinal
        exact Qdtsne.list_sum_map_div _ _
    · intro i _
      simp only [Function.comp_apply]
      rw [List.map_snd_zip _ _ (le_of_eq (Qdtsne.row_lengths_eq hv))]

/-- Witness for `C1_symmetrize_probability_matrix` at the two-point mutual
pair. -/
theorem C1_symmetrize_probability_matrix_witness :
    Qdtsne.ValidNeighbors Qdtsne.Jpair 2 1 ∧
      (∀ a < 2, ∀ b < 1, (0:ℚ) ≤ Qdtsne.Ppair a b) ∧
      (0 < ((List.range 2).map
        (fun i => ((List.range 1).map (Qdtsne.Ppair i)).sum)).sum) ∧
      ((∀ i j q,
          ((j, q) ∈ (Qdtsne.symmetrize_matrix_tsne Qdtsne.Jpair Qdtsne.Ppair 2 1).getD i []) →
          ((i, q) ∈ (Qdtsne.symmetrize_matrix_tsne Qdtsne.Jpair Qdtsne.Ppair 2 1).getD j [])) ∧
        (∀ i j q,
          ((j, q) ∈ (Qdtsne.symmetrize_matrix_tsne Qdtsne.Jpair Qdtsne.Ppair 2 1).getD i []) →
          0 ≤ q) ∧
        ((Qdtsne.symmetrize_matrix_tsne Qdtsne.Jpair Qdtsne.Ppair 2 1).map
            (fun row => (row.map Prod.snd).sum)).sum = 1) :=
  ⟨⟨by decide, by decide, by decide⟩,
    fun a _ b _ => by norm_num [Qdtsne.Ppair],
    by simp [Qdtsne.Ppair, List.range_succ],
    C1_symmetrize_probability_matrix Qdtsne.Jpair Qdtsne.Ppair 2 1
      ⟨by decide, by decide, by decide⟩
      (fun a _ b _ => by norm_num [Qdtsne.Ppair])
      (by simp [Qdtsne.Ppair, List.range_succ])⟩

namespace Qdtsne

lemma initialize_direct_ok_iff (expF logF : ℚ → ℚ)
    (nnIndex : List (List Nat)) (nnDist : List (Nat → ℚ)) (K : Nat) :
    exOk (initialize_direct expF logF nnIndex nnDist K) = true
      ↔ nnIndex.length = nnDist.length := by
  unfold initialize_direct
  by_cases h : nnIndex.length = nnDist.length
  · rw [if_neg (by simpa using h)]
    simp [exOk, h]
  · rw [if_pos (by simpa using h)]
    simp [exOk, h]

lemma initialize_searcher_ok_iff (expF logF : ℚ → ℚ) (perplexity : ℚ)
    (nobs : Nat) (search : Nat → Nat → List (Nat × ℚ)) :
    exOk (initialize_searcher expF logF perplexity nobs search) = true
      ↔ size_t_of_int ⌈perplexity * 3⌉ < nobs := by
  unfold initialize_searcher
  by_cases h : size_t_of_int ⌈perplexity * 3⌉ ≥ nobs
  · rw [if_pos h]
    simp [exOk]
    omega
  · rw [if_neg h]
    rw [initialize_direct_ok_iff]
    simp
    omega

end Qdtsne

/-- **C3** (counterexample to the claim as stated): the direct
`initialize(nn_index, nn_dist, K)` performs no `K ≥ N` check — with `N = 2`
observations and `K = 5 ≥ 2` (and equal-length index and distance lists) it
succeeds instead of raising InvalidInput. -/
theorem C3_counterexample :
    Qdtsne.exOk (Qdtsne.initialize_direct (fun _ => 1) (fun _ => 0)
        [[1], [0]] [fun _ => 1, fun _ => 1] 5) = true ∧ 2 ≤ 5 :=
  ⟨(Qdtsne.initialize_direct_ok_iff _ _ _ _ _).mpr rfl, by decide⟩

/-- **C3** (amended): the direct `initialize(nn_index, nn_dist, K)` raises an
error exactly when the index and distance lists have mismatched lengths, and
succeeds in all other cases (even when `K ≥ N`); the `K ≥ N` check — with
`K = ceil(3·perplexity)` compared as `size_t` — is performed only by the
searcher-based `initialize`, which raises exactly when `K ≥ N` and otherwise
succeeds. -/
theorem C3_initialize_errors (expF logF : ℚ → ℚ) (nnIndex : List (List Nat))
    (nnDist : List (Nat → ℚ)) (K : Nat) (perplexity : ℚ) (nobs : Nat)
    (search : Nat → Nat → List (Nat × ℚ)) :
    (Qdtsne.exOk (Qdtsne.initialize_direct expF logF nnIndex nnDist K) = true
        ↔ nnIndex.length = nnDist.length) ∧
      (Qdtsne.exOk (Qdtsne.initialize_searcher expF logF perplexity nobs search)
          = true
        ↔ Qdtsne.size_t_of_int ⌈perplexity * 3⌉ < nobs) :=
  ⟨Qdtsne.initialize_direct_ok_iff expF logF nnIndex nnDist K,
    Qdtsne.initialize_searcher_ok_iff expF logF perplexity nobs search⟩

namespace Qdtsne

lemma sortPairs_sorted (l : List (Nat × ℚ)) :
    List.Sorted pairLe (sortPairs l) :=
  List.sorted_insertionSort pairLe l

lemma sortPairs_fst_sorted (l : List (Nat × ℚ)) :
    List.Sorted (· ≤ ·) ((sortPairs l).map Prod.fst) := by
  have h := sortPairs_sorted l
  unfold List.Sorted at *
  refine List.Pairwise.map Prod.fst ?_ h
  intro a b hab
  rcases hab with hab | ⟨hab, _⟩
  · exact Nat.le_of_lt hab
  · exact Nat.le_of_eq hab

lemma getD_map_sortPairs {α : Type} (L : List α) (g : α → List (Nat × ℚ))
    (i : Nat) :
    List.Sorted (· ≤ ·)
      (((L.map (fun row => sortPairs (g row))).getD i []).map Prod.fst) := by
  by_cases hi : i < (L.map (fun row => sortPairs (g row))).length
  · rw [List.getD_eq_getElem _ _ hi, List.getElem_map]
    exact sortPairs_fst_sorted _
  · rw [List.getD_eq_default _ _ (Nat.le_of_not_lt hi)]
    simp

end Qdtsne

/-- **C4** (counterexample to the claim as stated): the in-class
`Tsne::symmetrize_matrix` (`tsne.hpp`) never re-sorts `col_P`: starting from
the valid neighbor table `[[2,1],[0,2],[0,1]]` (rows are distance-ordered,
not index-ordered), output row 0 lists its neighbors as `[2, 1]`, which is
not ascending. -/
theorem C4_counterexample :
    ((Qdtsne.symmetrize_matrix_tsne
        (fun i k => (([[2,1],[0,2],[0,1]] : List (List Nat)).getD i []).getD k 0)
        (fun _ _ => (1 : ℚ)) 3 2).getD 0 []).map Prod.fst = [2, 1] ∧
      ¬ List.Sorted (· ≤ ·)
        (((Qdtsne.symmetrize_matrix_tsne
          (fun i k => (([[2,1],[0,2],[0,1]] : List (List Nat)).getD i []).getD k 0)
          (fun _ _ => (1 : ℚ)) 3 2).getD 0 []).map Prod.fst) := by
  have hv : Qdtsne.ValidNeighbors
      (fun i k => (([[2,1],[0,2],[0,1]] : List (List Nat)).getD i []).getD k 0)
      3 2 := ⟨by decide, by decide, by decide⟩
  have h1 : ((Qdtsne.symmetrize_matrix_tsne
      (fun i k => (([[2,1],[0,2],[0,1]] : List (List Nat)).getD i []).getD k 0)
      (fun _ _ => (1 : ℚ)) 3 2).getD 0 []).map Prod.fst = [2, 1] := by
    rw [Qdtsne.output_row_lt (by decide),
      List.map_fst_zip _ _ (le_of_eq (Qdtsne.row_lengths_eq hv).symm)]
    unfold Qdtsne.symRowIdx
    rw [(Qdtsne.extra_final (P := fun _ _ => (1 : ℚ)) hv 0).1]
    decide
  refine ⟨h1, ?_⟩
  rw [h1]
  decide

/-- **C4** (amended): the claim holds for the standalone `symmetrize_matrix`
of `symmetrize.hpp`, whose final pass re-sorts every row: after it completes,
every row of the neighbor list — appended entries included — is sorted by
ascending neighbor index.  (The in-class `Tsne::symmetrize_matrix` of
`tsne.hpp` performs no such sort and leaves rows in original neighbor order,
as `C4_counterexample` shows.) -/
theorem C4_rows_sorted (x0 : List (List (Nat × ℚ))) (i : Nat) :
    List.Sorted (· ≤ ·)
      (((Qdtsne.symmetrize_matrix_nl x0).getD i []).map Prod.fst) := by
  unfold Qdtsne.symmetrize_matrix_nl
  exact Qdtsne.getD_map_sortPairs _ _ i

namespace Qdtsne

lemma fAdd_zero_right (a : ℚ × (Nat → ℚ)) : fAdd a (0, fun _ => 0) = a := by
  unfold fAdd
  refine Prod.ext ?_ ?_
  · simp
  · funext d
    simp

lemma fAdd_assoc (a b c : ℚ × (Nat → ℚ)) :
    fAdd (fAdd a b) c = fAdd a (fAdd b c) := by
  unfold fAdd
  refine Prod.ext ?_ ?_
  · simp [add_assoc]
  · funext d
    simp [add_assoc]

lemma fAdd_left_comm (a b c : ℚ × (Nat → ℚ)) :
    fAdd a (fAdd b c) = fAdd b (fAdd a c) := by
  unfold fAdd
  refine Prod.ext ?_ ?_
  · simp [add_left_comm]
  · funext d
    simp [add_left_comm]

lemma fAdd_zero_left (a : ℚ × (Nat → ℚ)) : fAdd (0, fun _ => 0) a = a := by
  unfold fAdd
  refine Prod.ext ?_ ?_
  · simp
  · funext d
    simp

lemma sumTerms_append (dim : Nat) (Y : Nat → Nat → ℚ) (n : Nat)
    (l1 l2 : List Nat) :
    sumTerms dim Y n (l1 ++ l2)
      = fAdd (sumTerms dim Y n l1) (sumTerms dim Y n l2) := by
  induction l1 with
  | nil =>
    rw [List.nil_append]
    unfold sumTerms
    rw [List.foldr_nil, fAdd_zero_left]
  | cons m l1 ih =>
    unfold sumTerms at *
    rw [List.cons_append, List.foldr_cons, List.foldr_cons, ih, fAdd_assoc]

mutual
theorem visitNode_exact (dim : Nat) (Y : Nat → Nat → ℚ) (n : Nat) :
    (T : SPTreeM) → allSingleton T = true →
      visitNode dim Y 0 n T = sumTerms dim Y n (treeIdxs T)
  | .leaf idxs, hs => by
    have hlen : idxs.length = 1 := by simpa [allSingleton] using hs
    obtain ⟨m, rfl⟩ := List.length_eq_one.mp hlen
    by_cases hnm : n = m
    · subst hnm
      simp only [visitNode, treeIdxs, sumTerms, List.foldr_cons, List.foldr_nil,
        pairTerm, if_pos rfl]
      refine Prod.ext ?_ ?_
      · simp [fAdd, leafCom]
      · funext d
        simp [fAdd, leafCom]
    · have hmn : ¬ m = n := fun h => hnm h.symm
      simp only [visitNode, treeIdxs, sumTerms, List.foldr_cons, List.foldr_nil,
        pairTerm]
      refine Prod.ext ?_ ?_
      · simp [fAdd, leafCom, hnm, hmn]
      · funext d
        simp [fAdd, leafCom, hnm, hmn]
  | .node com hw number children, hs => by
    have hf : allSingletonF children = true := by simpa [allSingleton] using hs
    simp only [visitNode, treeIdxs]
    rw [if_neg (fun hc => lt_irrefl (0 : ℚ) hc.1)]
    exact visitForest_exact dim Y n children hf

theorem visitForest_exact (dim : Nat) (Y : Nat → Nat → ℚ) (n : Nat) :
    (F : SPForest) → allSingletonF F = true →
      visitForest dim Y 0 n F = sumTerms dim Y n (forestIdxs F)
  | .nil, _ => rfl
  | .cons t f, hs => by
    have h1 : allSingleton t = true ∧ allSingletonF f = true := by
      simpa [allSingletonF, Bool.and_eq_true] using hs
    simp only [visitForest, forestIdxs]
    rw [sumTerms_append, visitNode_exact dim Y n t h1.1,
      visitForest_exact dim Y n f h1.2]
end

lemma compute_model_exact (dim : Nat) (Y : Nat → Nat → ℚ) (n : Nat)
    (T : SPTreeM) (hs : allSingleton T = true) :
    compute_non_edge_forces_model dim Y 0 n T
      = sumTerms dim Y n (treeIdxs T) := by
  cases T with
  | leaf idxs => exact visitNode_exact dim Y n (.leaf idxs) hs
  | node com hw number children =>
    simp only [compute_non_edge_forces_model, treeIdxs]
    exact visitForest_exact dim Y n children (by simpa [allSingleton] using hs)

lemma reference_eq_sumTerms (dim : Nat) (Y : Nat → Nat → ℚ) (N n : Nat) :
    reference_non_edge_forces dim Y N n = sumTerms dim Y n (List.range N) := by
  suffices h : ∀ (l : List Nat) (acc : ℚ × (Nat → ℚ)),
      (l.foldl (refStep dim Y n) acc) = fAdd acc (sumTerms dim Y n l) by
    unfold reference_non_edge_forces
    rw [h (List.range N) (0, fun _ => 0), fAdd_zero_left]
  intro l
  induction l with
  | nil =>
    intro acc
    unfold sumTerms
    rw [List.foldl_nil, List.foldr_nil, fAdd_zero_right]
  | cons m l ih =>
    intro acc
    rw [List.foldl_cons, ih]
    have hstep : refStep dim Y n acc m = fAdd acc (pairTerm dim Y n m) := by
      unfold refStep pairTerm
      by_cases hmn : m = n
      · rw [if_pos hmn, if_pos hmn, fAdd_zero_right]
      · rw [if_neg hmn, if_neg hmn]
        rfl
    rw [hstep]
    have hcons : sumTerms dim Y n (m :: l)
        = fAdd (pairTerm dim Y n m) (sumTerms dim Y n l) := by
      unfold sumTerms
      rw [List.foldr_cons]
    rw [hcons, ← fAdd_assoc]

lemma sumTerms_perm (dim : Nat) (Y : Nat → Nat → ℚ) (n : Nat)
    {l1 l2 : List Nat} (h : l1.Perm l2) :
    sumTerms dim Y n l1 = sumTerms dim Y n l2 := by
  unfold sumTerms
  haveI : LeftCommutative
      (fun (m : Nat) (acc : ℚ × (Nat → ℚ)) => fAdd (pairTerm dim Y n m) acc) :=
    ⟨fun a b c => fAdd_left_comm _ _ _⟩
  exact h.foldr_eq _

end Qdtsne

/-- **C2** (spec-modelled: the SPTree implementation itself is absent from
the sources — only its tests and callers are — so the tree and its traversal
are modelled from §4.2 of the specification; the naive reference is
translated from the test suite): for every point set whose SPTree has every
leaf holding exactly one point and whose leaves together hold exactly the `N`
point indices, the tree's non-edge force computation with `θ = 0` returns a
`Q_sum` and `neg_f` exactly equal (exact arithmetic, subsuming the 10⁻⁶
relative tolerance) to the naive O(N²) pairwise computation that sums
`q = 1/(1+r²)` into `Q_sum` and `q²·δ` into `neg_f` over all other points. -/
theorem C2_barnes_hut_theta_zero_exact (dim : Nat) (Y : Nat → Nat → ℚ)
    (N n : Nat) (T : Qdtsne.SPTreeM)
    (hsingle : Qdtsne.allSingleton T = true)
    (hperm : (Qdtsne.treeIdxs T).Perm (List.range N)) :
    (Qdtsne.compute_non_edge_forces_model dim Y 0 n T).1
        = (Qdtsne.reference_non_edge_forces dim Y N n).1 ∧
      ∀ d, (Qdtsne.compute_non_edge_forces_model dim Y 0 n T).2 d
        = (Qdtsne.reference_non_edge_forces dim Y N n).2 d := by
  have h := (Qdtsne.compute_model_exact dim Y n T hsingle).trans
    ((Qdtsne.sumTerms_perm dim Y n hperm).trans
      (Qdtsne.reference_eq_sumTerms dim Y N n).symm)
  exact ⟨congrArg Prod.fst h, fun d => congrArg (fun p => p.2 d) h⟩

/-- Witness for `C2_barnes_hut_theta_zero_exact`: two points in 2-D, a root
with two singleton leaves, query point 0. -/
theorem C2_barnes_hut_theta_zero_exact_witness :
    Qdtsne.allSingleton (Qdtsne.SPTreeM.node [] [] 2
        (.cons (.leaf [1]) (.cons (.leaf [0]) .nil))) = true ∧
      (Qdtsne.treeIdxs (Qdtsne.SPTreeM.node [] [] 2
        (.cons (.leaf [1]) (.cons (.leaf [0]) .nil)))).Perm (List.range 2) ∧
      ((Qdtsne.compute_non_edge_forces_model 2 (fun m _ => (m : ℚ)) 0 0
          (Qdtsne.SPTreeM.node [] [] 2
            (.cons (.leaf [1]) (.cons (.leaf [0]) .nil)))).1
          = (Qdtsne.reference_non_edge_forces 2 (fun m _ => (m : ℚ)) 2 0).1 ∧
        ∀ d, (Qdtsne.compute_non_edge_forces_model 2 (fun m _ => (m : ℚ)) 0 0
          (Qdtsne.SPTreeM.node [] [] 2
            (.cons (.leaf [1]) (.cons (.leaf [0]) .nil)))).2 d
          = (Qdtsne.reference_non_edge_forces 2 (fun m _ => (m : ℚ)) 2 0).2 d) :=
  ⟨by decide, by decide,
    C2_barnes_hut_theta_zero_exact 2 (fun m _ => (m : ℚ)) 2 0
      (Qdtsne.SPTreeM.node [] [] 2 (.cons (.leaf [1]) (.cons (.leaf [0]) .nil)))
      (by decide) (by decide)⟩

